import Mathlib

/-!
Verification of the sparse binary-op intersection kernel
(`aten/src/ATen/native/sparse/SparseBinaryOpIntersectionCommon.h`).

The development shallowly embeds the kernel's data model and pipeline:
sparse COO tensors, the stride-based perfect hash, the `find_bound`
binary search, the hash-intersection join, the prefix-sum compaction
and the gather stage, plus the dispatching entry point
`_sparse_binary_op_intersection_kernel_out`.

External collaborators (dense-tensor sort, coalesce, broadcasting-shape
inference) that are not part of the translated header are modelled from
the specification and marked as such in their doc comments.
-/

set_option maxHeartbeats 1000000

namespace SparseIntersection

/-- A sparse coordinate: one column of the `indices` tensor
(`sparse_dim` many integer entries). -/
abbrev Coord := List Int

/-- Strict lexicographic order on coordinates (the order with respect to
which a coalesced tensor's indices are sorted).  For coordinates of equal
length this is exactly the component-wise lexicographic order; shorter
lists sort first so that the order is total on all lists. -/
def coordLt : Coord → Coord → Bool
  | [], [] => false
  | [], _ :: _ => true
  | _ :: _, [] => false
  | a :: as, b :: bs => a < b || (a == b && coordLt as bs)

/-- Non-strict companion of `coordLt`, used when sorting during coalescing. -/
def coordLe (a b : Coord) : Bool := !(coordLt b a)

/-- Bounds check: every component of the coordinate is nonnegative and
smaller than the corresponding entry of the (sparse-dim) shape. -/
def inBoundsB : Coord → List Nat → Bool
  | [], [] => true
  | a :: c, s :: ss => decide (0 ≤ a) && decide (a < (s : Int)) && inBoundsB c ss
  | _, _ => false

/-- Row-major (contiguous) strides of a shape:
`strides[i] = prod sizes[i+1 ..]`.
Modelled from the spec: `contiguous_strides` is provided by the dense
tensor library (not part of the translated header); the spec describes it
as the row-major strides of the broadcasted sparse sub-shape. -/
def contiguous_strides : List Nat → List Int
  | [] => []
  | _ :: tl => ((tl.prod : Nat) : Int) :: contiguous_strides tl

/-- The hash function of the kernel: a coordinate is mapped to
`Σ_d coord[d] * hash_coeffs[d]` (lines 213-222 and 300-309 of the header). -/
def hashCoord (coeffs : List Int) (c : Coord) : Int :=
  (List.zipWith (· * ·) c coeffs).sum

/-! ### `find_bound` (header lines 37-61)

Classic partitioning binary search over the position range
`[first, first + count)`.  The C++ `while (count > 0)` loop is embedded
with explicit structural fuel; each iteration strictly decreases `count`,
so `L.length + 1` units of fuel always suffice. -/

/-- The loop of `find_bound`: arguments are fuel, `first`, `count`.
The advance condition is `is_lower ? *it < value : value >= *it`. -/
def findBoundLoop (L : List Int) (v : Int) (is_lower : Bool) :
    Nat → Nat → Nat → Nat
  | 0, first, _ => first
  | fuel + 1, first, count =>
    if count = 0 then first
    else
      let step := count / 2
      let x := L.getD (first + step) 0
      if (if is_lower then x < v else v ≥ x) then
        findBoundLoop L v is_lower fuel (first + step + 1) (count - (step + 1))
      else
        findBoundLoop L v is_lower fuel first step

/-- `find_bound` searches the whole list. -/
def find_bound (L : List Int) (v : Int) (is_lower : Bool) : Nat :=
  findBoundLoop L v is_lower (L.length + 1) 0 L.length

/-- The predicate along which `find_bound` advances: element strictly
below the value for the lower bound, at most the value for the upper. -/
def fbAdv (v : Int) (is_lower : Bool) (x : Int) : Prop :=
  if is_lower then x < v else x ≤ v

/-! ### Sorting collaborator -/

/-- Insert into a sorted list. Modelled from the spec: part of the
`sort(values) -> (sorted_values, permutation)` collaborator of §6. -/
def orderedInsertBy {α : Type} (le : α → α → Bool) (a : α) : List α → List α
  | [] => [a]
  | b :: l => if le a b then a :: b :: l else b :: orderedInsertBy le a l

/-- Insertion sort. Modelled from the spec: any sort satisfying the §6
contract works; insertion sort is the simplest executable instance. -/
def insertionSortBy {α : Type} (le : α → α → Bool) : List α → List α
  | [] => []
  | a :: l => orderedInsertBy le a (insertionSortBy le l)

/-- Tag every element of a list with its position (starting at `k`). -/
def withIdx : List Int → Nat → List (Int × Nat)
  | [], _ => []
  | x :: xs, k => (x, k) :: withIdx xs (k + 1)

/-- The sort stage collaborator: returns hash values in nondecreasing
order together with the permutation of original positions.
Modelled from the spec (§6): `sort(values) -> (sorted, permutation)`
with `sorted[i] = values[permutation[i]]`. -/
def sortWithIndices (xs : List Int) : List Int × List Nat :=
  let sorted := insertionSortBy (fun p q : Int × Nat => decide (p.1 ≤ q.1)) (withIdx xs 0)
  (sorted.map Prod.fst, sorted.map Prod.snd)

/-! ### Prefix sums and the gather stage -/

/-- Inclusive prefix sum, the model of `cumsum` (header line 352). -/
def cumsum : List Nat → List Nat
  | [] => []
  | a :: as => a :: (cumsum as).map (a + ·)

/-- Per-source expansion of the gather stage (header lines 431-432):
source nonzero `k` fills its `count[k]` consecutive output slots with `k`. -/
def selSourceLoop : Nat → List Nat → List Nat
  | _, [] => []
  | k, c :: cs => List.replicate c k ++ selSourceLoop (k + 1) cs

def selSource (counts : List Nat) : List Nat := selSourceLoop 0 counts

/-- Probe-side selection of the gather stage (header line 433): slot `i`
of source nonzero `k` receives `argsort[first_match_idx[k] + i]`. -/
def selProbeLoop (argsort : List Nat) : List (Nat × Nat) → List Nat
  | [] => []
  | (c, f) :: cs =>
    (List.range c).map (fun i => argsort.getD (f + i) 0) ++ selProbeLoop argsort cs

def selProbe (counts firsts : List Nat) (argsort : List Nat) : List Nat :=
  selProbeLoop argsort (counts.zip firsts)

/-! ### Sparse tensors (§3 data model) -/

variable {D V : Type}

/-- A (possibly sparse) tensor.  `D` is the type of dtypes, `V` the type
of one value row (the dense payload of one nonzero).  `indices` keeps one
coordinate per nonzero, i.e. one column of the 2-d `indices` tensor of
the C++ source; `is_sparse` distinguishes sparse from dense layout
(a dense tensor carries junk in the sparse-only fields). -/
structure Tensor (D V : Type) where
  is_sparse : Bool
  dtype : D
  sparse_dim : Nat
  dense_dim : Nat
  shape : List Nat
  indices : List Coord
  values : List V
  coalesced : Bool

/-- `Tensor::_nnz()`. -/
def Tensor.nnz (t : Tensor D V) : Nat := t.indices.length

/-- `Tensor::dim()`. -/
def Tensor.dim (t : Tensor D V) : Nat := t.shape.length

/-- Decidable check that a coordinate list is strictly increasing in the
lexicographic order (the coalesced-tensor invariant). -/
def pairwiseLtB : List Coord → Bool
  | [] => true
  | c :: cs => cs.all (fun d => coordLt c d) && pairwiseLtB cs

/-- Executable well-formedness of a sparse tensor (the §3 invariants):
sparse layout, aligned `indices`/`values`, consistent dimensions,
in-bounds coordinates, and — when the coalesced flag is set —
lexicographically sorted pairwise-distinct coordinates. -/
def Tensor.ValidB (t : Tensor D V) : Bool :=
  t.is_sparse &&
  (t.values.length == t.indices.length) &&
  (t.sparse_dim + t.dense_dim == t.shape.length) &&
  t.indices.all (fun c => inBoundsB c (t.shape.take t.sparse_dim)) &&
  (!t.coalesced || pairwiseLtB t.indices)

def Tensor.Valid (t : Tensor D V) : Prop := t.ValidB = true

/-! ### Coalescing (external collaborator) -/

/-- One step of duplicate merging: combine `p` with the head of the
already-merged tail when the coordinates agree. -/
def mergeStep (vadd : V → V → V) (p : Coord × V) :
    List (Coord × V) → List (Coord × V)
  | [] => [p]
  | q :: qs => if p.1 = q.1 then (p.1, vadd p.2 q.2) :: qs else p :: q :: qs

/-- Merge adjacent duplicate coordinates, combining their value rows.
Modelled from the spec: part of the external `coalesce` operation of the
sparse storage collaborator (§2; glossary: a coalesced tensor has sorted,
pairwise-unique coordinates with duplicate nonzeros merged). -/
def mergeDups (vadd : V → V → V) : List (Coord × V) → List (Coord × V)
  | [] => []
  | p :: rest => mergeStep vadd p (mergeDups vadd rest)

/-- Modelled from the spec: `Tensor::coalesce` (external sparse storage
collaborator, §2).  A coalesced tensor is returned as is; otherwise the
nonzeros are sorted by coordinate, duplicate coordinates are merged
(combining value rows) and the result is marked coalesced. -/
def Tensor.coalesce (vadd : V → V → V) (t : Tensor D V) : Tensor D V :=
  if t.coalesced then t
  else
    let pairs := insertionSortBy (fun p q : Coord × V => coordLe p.1 q.1)
      (t.indices.zip t.values)
    let merged := mergeDups vadd pairs
    { t with indices := merged.map Prod.fst, values := merged.map Prod.snd,
             coalesced := true }

/-- The merged and sorted pair list used by `coalesce` on uncoalesced input. -/
def coalescePairs (vadd : V → V → V) (t : Tensor D V) : List (Coord × V) :=
  mergeDups vadd (insertionSortBy (fun p q : Coord × V => coordLe p.1 q.1)
    (t.indices.zip t.values))

/-! ### Role selection, sort stage, join, pipeline -/

/-- Role selection (header lines 104-143): decide which input is
`probably_coalesced` (the probe side, first component) and which is
`source` (second component); eagerly coalesce the larger side when the
pigeonhole bound `nnz / prod(sparse shape)` exceeds
`MAX_COPIES_PER_THREAD = 50`. -/
def roleSelect (vadd : V → V → V) (x y : Tensor D V) :
    Tensor D V × Tensor D V :=
  if x.coalesced != y.coalesced then
    if x.coalesced then (x, y) else (y, x)
  else
    let larger := if x.nnz ≥ y.nnz then x else y
    let smaller := if x.nnz ≥ y.nnz then y else x
    let sparse_dim_numel := (larger.shape.take larger.sparse_dim).prod
    let max_count_lower_bound := larger.nnz / sparse_dim_numel
    if max_count_lower_bound > 50 then (larger.coalesce vadd, smaller)
    else (larger, smaller)

/-- The hash mapper (header lines 186-227): hash every coordinate. -/
def hashesOf (coeffs : List Int) (cs : List Coord) : List Int :=
  cs.map (hashCoord coeffs)

/-- The sort stage (header lines 232-248): skipped, with the identity
permutation, when the probe side is already coalesced. -/
def sortStage (pc : Tensor D V) (h : List Int) : List Int × List Nat :=
  if pc.coalesced then (h, List.range pc.nnz)
  else sortWithIndices h

/-- The join engine (header lines 261-332): for each source coordinate,
hash it (fused) and binary-search the sorted probe hashes, recording
`(count, first_match_offset) = (ub - lb, lb)`. -/
def joinRecords (sorted_hash : List Int) (coeffs : List Int)
    (src_cs : List Coord) : List (Nat × Nat) :=
  src_cs.map (fun c =>
    (find_bound sorted_hash (hashCoord coeffs c) false -
       find_bound sorted_hash (hashCoord coeffs c) true,
     find_bound sorted_hash (hashCoord coeffs c) true))

/-- All intermediate arrays of one kernel invocation (§3 lifecycle). -/
structure PipeState (D V : Type) where
  pc : Tensor D V
  src : Tensor D V
  hash_coeffs : List Int
  sorted_hash : List Int
  argsort_hash : List Nat
  counts : List Nat
  firsts : List Nat
  sel_src : List Nat
  sel_pc : List Nat

/-- The pipeline of `_sparse_binary_op_intersection_kernel_impl`
(header lines 94-450), from the optional pre-coalescing of
non-commutative calls up to and including the gather stage. -/
def pipeline (vadd : V → V → V) (x_ y_ : Tensor D V)
    (broadcasted_shape : List Nat) (is_commutative : Bool) : PipeState D V :=
  let x := if is_commutative then x_ else x_.coalesce vadd
  let y := if is_commutative then y_ else y_.coalesce vadd
  let ps := roleSelect vadd x y
  let probably_coalesced := ps.1
  let source := ps.2
  let hash_coeffs :=
    contiguous_strides (broadcasted_shape.take probably_coalesced.sparse_dim)
  let pc_hash := hashesOf hash_coeffs probably_coalesced.indices
  let sh := sortStage probably_coalesced pc_hash
  let recs := joinRecords sh.1 hash_coeffs source.indices
  let counts := recs.map Prod.fst
  let firsts := recs.map Prod.snd
  { pc := probably_coalesced, src := source, hash_coeffs := hash_coeffs,
    sorted_hash := sh.1, argsort_hash := sh.2, counts := counts,
    firsts := firsts, sel_src := selSource counts,
    sel_pc := selProbe counts firsts sh.2 }

/-- `_sparse_binary_op_intersection_kernel_impl` (header lines 76-482).
The function parameters model external collaborators: `op` is
`binary_op_t::apply` on one pair of value rows, `castTo v d` is
`Tensor::to(dtype)` on one row, `result_type` and `canCast` the dtype
promotion rules, `vadd` the value-row addition used by `coalesce`, and
`vdflt` an arbitrary inhabitant used for the (never reached on valid
inputs) out-of-range reads of `getD`.  Errors are `Except.error`; the
output tensor is constructed only after every stage has completed, so an
error leaves the caller's `res` untouched. -/
def _sparse_binary_op_intersection_kernel_impl
    (op : V → V → V) (castTo : V → D → V) (result_type : D → D → D)
    (canCast : D → D → Bool) (vadd : V → V → V) (vdflt : V)
    (res x_ y_ : Tensor D V) (broadcasted_shape : List Nat)
    (is_commutative : Bool) : Except String (Tensor D V) :=
  let common_dtype := result_type x_.dtype y_.dtype
  if canCast common_dtype res.dtype = false then
    Except.error "cannot convert result type to output dtype"
  else
    let st := pipeline vadd x_ y_ broadcasted_shape is_commutative
    let selected_source_values := st.sel_src.map (fun k => st.src.values.getD k vdflt)
    let selected_pc_values := st.sel_pc.map (fun j => st.pc.values.getD j vdflt)
    let res_values := List.zipWith (fun a b => castTo (op a b) res.dtype)
      selected_source_values selected_pc_values
    let res_indices := st.sel_src.map (fun k => st.src.indices.getD k [])
    Except.ok {
      is_sparse := true
      dtype := res.dtype
      sparse_dim := st.src.sparse_dim
      -- res_dense_dim = res_values.dim() - 1: one value row has rank
      -- dense_dim, the values tensor rank dense_dim + 1, and the
      -- elementwise op broadcasts the two dense payload shapes.
      dense_dim := max st.src.dense_dim st.pc.dense_dim
      shape := broadcasted_shape
      indices := res_indices
      values := res_values
      coalesced := st.src.coalesced && st.pc.coalesced }

/-! ### Entry point -/

/-- Modelled from the spec: broadcasting shape inference (`infer_size`),
an external collaborator (§2), defined here for inputs of equal rank —
which the entry point's precondition guarantees before calling it. -/
def infer_size : List Nat → List Nat → Option (List Nat)
  | [], [] => some []
  | a :: as, b :: bs =>
    match infer_size as bs with
    | none => none
    | some cs =>
      if a = b then some (a :: cs)
      else if a = 1 then some (b :: cs)
      else if b = 1 then some (a :: cs)
      else none
  | _, _ => none

inductive HashWidth where
  | w32
  | w64
deriving DecidableEq

inductive OffsetWidth where
  | w32
  | w64
deriving DecidableEq

def int32_max : Int := 2147483647

/-- `max_hash_val` of the entry point (header lines 502-505): the product
of the first `sparse_dim` entries of the broadcasted shape. -/
def maxHashVal (x : Tensor D V) (broadcasted_shape : List Nat) : Int :=
  (((broadcasted_shape.take x.sparse_dim).prod : Nat) : Int)

/-- The four-way hash-width and offset-width dispatch of
`_sparse_binary_op_intersection_kernel_out` (header lines 507-539). -/
def kernelDispatch (x y : Tensor D V) (broadcasted_shape : List Nat) :
    HashWidth × OffsetWidth :=
  let max_hash_val := maxHashVal x broadcasted_shape
  let is_max_hash_32bits := decide (max_hash_val ≤ int32_max)
  let is_max_offset_32bits :=
    decide ((x.nnz : Int) * (y.nnz : Int) ≤ int32_max)
  if is_max_hash_32bits && is_max_offset_32bits then
    (HashWidth.w32, OffsetWidth.w32)
  else if is_max_hash_32bits && !is_max_offset_32bits then
    (HashWidth.w32, OffsetWidth.w64)
  else if !is_max_hash_32bits && is_max_offset_32bits then
    (HashWidth.w64, OffsetWidth.w32)
  else
    (HashWidth.w64, OffsetWidth.w64)

/-- The precondition of the entry point (header lines 493-498). -/
def entryPrecond (x y : Tensor D V) : Prop :=
  x.is_sparse = true ∧ y.is_sparse = true ∧ x.dim = y.dim ∧
    x.sparse_dim = y.sparse_dim ∧
    x.shape.take x.sparse_dim = y.shape.take y.sparse_dim

instance (x y : Tensor D V) : Decidable (entryPrecond x y) := by
  unfold entryPrecond
  infer_instance

/-- `_sparse_binary_op_intersection_kernel_out` (header lines 487-540):
precondition check, broadcast-shape inference, width dispatch, kernel
call.  All four width specializations execute the same exact-integer
model of the kernel. -/
def _sparse_binary_op_intersection_kernel_out
    (op : V → V → V) (castTo : V → D → V) (result_type : D → D → D)
    (canCast : D → D → Bool) (vadd : V → V → V) (vdflt : V)
    (res x y : Tensor D V) (is_commutative : Bool) :
    Except String (Tensor D V) :=
  if ¬ entryPrecond x y then
    Except.error "expects sparse inputs with equal dimensionality, number of sparse dimensions, and shape of sparse dimensions"
  else
    match infer_size x.shape y.shape with
    | none => Except.error "shapes are not broadcastable"
    | some broadcasted_shape =>
      match kernelDispatch x y broadcasted_shape with
      | (HashWidth.w32, OffsetWidth.w32) =>
        _sparse_binary_op_intersection_kernel_impl op castTo result_type
          canCast vadd vdflt res x y broadcasted_shape is_commutative
      | (HashWidth.w32, OffsetWidth.w64) =>
        _sparse_binary_op_intersection_kernel_impl op castTo result_type
          canCast vadd vdflt res x y broadcasted_shape is_commutative
      | (HashWidth.w64, OffsetWidth.w32) =>
        _sparse_binary_op_intersection_kernel_impl op castTo result_type
          canCast vadd vdflt res x y broadcasted_shape is_commutative
      | (HashWidth.w64, OffsetWidth.w64) =>
        _sparse_binary_op_intersection_kernel_impl op castTo result_type
          canCast vadd vdflt res x y broadcasted_shape is_commutative

/-! ### Pipeline facts -/

/-- A tensor fit to serve as a join side: valid, with the given number of
sparse dimensions, and a sparse-shape prefix equal to the broadcasted
sparse prefix used for hashing (the entry point's precondition). -/
def GoodSide (t : Tensor D V) (sd : Nat) (bsp : List Nat) : Prop :=
  t.Valid ∧ t.sparse_dim = sd ∧ t.shape.take t.sparse_dim = bsp

instance (t : Tensor D V) (sd : Nat) (bsp : List Nat) :
    Decidable (GoodSide t sd bsp) := by
  unfold GoodSide Tensor.Valid
  infer_instance

/-! ### Claim theorems -/

/-- Sample tensors exercising the four width combinations. -/
def tinyT : Tensor Unit Unit :=
  ⟨true, (), 1, 0, [2], [[0]], [()], true⟩

def bigShapeT : Tensor Unit Unit :=
  ⟨true, (), 1, 0, [4294967296], [[0]], [()], true⟩

def bigNnzT : Tensor Unit Unit :=
  ⟨true, (), 1, 0, [2], List.replicate 65536 [0], List.replicate 65536 (), false⟩

def bigBothT : Tensor Unit Unit :=
  ⟨true, (), 1, 0, [4294967296], List.replicate 65536 [0],
    List.replicate 65536 (), false⟩

def denseT : Tensor Unit Unit :=
  ⟨false, (), 1, 0, [2], [], [], true⟩

/-- Project the tensor out of a successful kernel run. -/
def okOr (e : Except String (Tensor D V)) (d : Tensor D V) : Tensor D V :=
  match e with
  | Except.ok t => t
  | Except.error _ => d

def exceptIsOk (e : Except String (Tensor D V)) : Bool :=
  match e with
  | Except.ok _ => true
  | Except.error _ => false

/-- An uncoalesced input with 51 duplicates of the coordinate `[0]`:
the role selector's pigeonhole bound `51 / 1 > 50` triggers the eager
coalesce of the larger side. -/
def cexX : Tensor Unit Int :=
  ⟨true, (), 1, 0, [1], List.replicate 51 [0], List.replicate 51 1, false⟩

def cexY : Tensor Unit Int :=
  ⟨true, (), 1, 0, [1], [[0]], [7], false⟩

def cexRes : Tensor Unit Int :=
  ⟨true, (), 1, 0, [1], [], [], true⟩

/-- Small coalesced inputs used to witness the pipeline claims. -/
def wX : Tensor Unit Int := ⟨true, (), 1, 0, [4], [[1]], [10], true⟩

def wY : Tensor Unit Int := ⟨true, (), 1, 0, [4], [[1]], [5], true⟩

def wRes : Tensor Unit Int := ⟨true, (), 1, 0, [4], [], [], true⟩

def wT : Tensor Unit Int := ⟨true, (), 1, 0, [4], [[1]], [50], true⟩

/-! ### Theorems -/

theorem coordLt_irrefl (c : Coord) : coordLt c c = false := by
  induction c with
  | nil => rfl
  | cons a as ih => simp [coordLt, ih]

theorem coordLt_trans {a b c : Coord} (hab : coordLt a b = true)
    (hbc : coordLt b c = true) : coordLt a c = true := by
  induction a generalizing b c with
  | nil =>
    cases b with
    | nil => simp [coordLt] at hab
    | cons y bs =>
      cases c with
      | nil => simp [coordLt] at hbc
      | cons z cs => simp [coordLt]
  | cons x as ih =>
    cases b with
    | nil => simp [coordLt] at hab
    | cons y bs =>
      cases c with
      | nil => simp [coordLt] at hbc
      | cons z cs =>
        simp only [coordLt, Bool.or_eq_true, Bool.and_eq_true, beq_iff_eq,
          decide_eq_true_eq] at hab hbc ⊢
        rcases hab with h1 | ⟨rfl, h1⟩
        · rcases hbc with h2 | ⟨rfl, h2⟩
          · exact Or.inl (lt_trans h1 h2)
          · exact Or.inl h1
        · rcases hbc with h2 | ⟨rfl, h2⟩
          · exact Or.inl h2
          · exact Or.inr ⟨rfl, ih h1 h2⟩

theorem coordLt_trichotomy (a b : Coord) :
    a = b ∨ coordLt a b = true ∨ coordLt b a = true := by
  induction a generalizing b with
  | nil =>
    cases b with
    | nil => exact Or.inl rfl
    | cons y bs => exact Or.inr (Or.inl (by simp [coordLt]))
  | cons x as ih =>
    cases b with
    | nil => exact Or.inr (Or.inr (by simp [coordLt]))
    | cons y bs =>
      rcases lt_trichotomy x y with hxy | hxy | hxy
      · exact Or.inr (Or.inl (by simp [coordLt, hxy]))
      · subst hxy
        rcases ih bs with h | h | h
        · exact Or.inl (by rw [h])
        · exact Or.inr (Or.inl (by simp [coordLt, h]))
        · exact Or.inr (Or.inr (by simp [coordLt, h]))
      · exact Or.inr (Or.inr (by simp [coordLt, hxy]))

theorem coordLt_asymm {a b : Coord} (h : coordLt a b = true) :
    coordLt b a = false := by
  by_contra hc
  have hba : coordLt b a = true := by
    cases hx : coordLt b a with
    | false => exact absurd hx hc
    | true => rfl
  have := coordLt_trans h hba
  rw [coordLt_irrefl] at this
  exact Bool.false_ne_true this

theorem coordLe_total (a b : Coord) : coordLe a b = true ∨ coordLe b a = true := by
  rcases coordLt_trichotomy a b with rfl | h | h
  · left; simp [coordLe, coordLt_irrefl]
  · left; simp [coordLe, coordLt_asymm h]
  · right; simp [coordLe, coordLt_asymm h]

theorem coordLe_trans {a b c : Coord} (hab : coordLe a b = true)
    (hbc : coordLe b c = true) : coordLe a c = true := by
  simp only [coordLe, Bool.not_eq_true'] at hab hbc ⊢
  by_contra hc
  have hca : coordLt c a = true := by
    cases hx : coordLt c a with
    | false => exact absurd hx hc
    | true => rfl
  rcases coordLt_trichotomy a b with rfl | h | h
  · rw [hca] at hbc; exact Bool.noConfusion hbc
  · have := coordLt_trans hca h
    rw [this] at hbc; simp at hbc
  · rw [h] at hab; simp at hab

theorem coordLt_of_le_of_ne {a b : Coord} (hle : coordLe a b = true)
    (hne : a ≠ b) : coordLt a b = true := by
  rcases coordLt_trichotomy a b with rfl | h | h
  · exact absurd rfl hne
  · exact h
  · simp [coordLe, h] at hle

theorem inBoundsB_length {c : Coord} {s : List Nat}
    (h : inBoundsB c s = true) : c.length = s.length := by
  induction c generalizing s with
  | nil => cases s with
    | nil => rfl
    | cons _ _ => simp [inBoundsB] at h
  | cons a c ih =>
    cases s with
    | nil => simp [inBoundsB] at h
    | cons t ts =>
      simp only [inBoundsB, Bool.and_eq_true] at h
      simp [ih h.2]

theorem hashCoord_nil (coeffs : List Int) : hashCoord coeffs [] = 0 := rfl

theorem hashCoord_cons (p : Int) (coeffs : List Int) (a : Int) (c : Coord) :
    hashCoord (p :: coeffs) (a :: c) = a * p + hashCoord coeffs c := by
  simp [hashCoord, List.zipWith]

/-- Range of the hash: on in-bounds coordinates the hash lands in
`[0, prod shape)`. -/
theorem hashCoord_bounds {c : Coord} {s : List Nat}
    (h : inBoundsB c s = true) :
    0 ≤ hashCoord (contiguous_strides s) c ∧
      hashCoord (contiguous_strides s) c < ((s.prod : Nat) : Int) := by
  induction c generalizing s with
  | nil =>
    cases s with
    | nil => simp [hashCoord]
    | cons t ts => simp [inBoundsB] at h
  | cons a c ih =>
    cases s with
    | nil => simp [inBoundsB] at h
    | cons t ts =>
      simp only [inBoundsB, Bool.and_eq_true, decide_eq_true_eq] at h
      obtain ⟨⟨ha0, hat⟩, hrest⟩ := h
      have ihb := ih hrest
      rw [contiguous_strides, hashCoord_cons]
      have hP : (0 : Int) ≤ ((ts.prod : Nat) : Int) := Int.natCast_nonneg _
      constructor
      · have : (0 : Int) ≤ a * ((ts.prod : Nat) : Int) := mul_nonneg ha0 hP
        omega
      · have h1 : hashCoord (contiguous_strides ts) c < ((ts.prod : Nat) : Int) := ihb.2
        have h2 : a * ((ts.prod : Nat) : Int) + ((ts.prod : Nat) : Int) ≤
            ((t : Int)) * ((ts.prod : Nat) : Int) := by
          have : (a + 1) * ((ts.prod : Nat) : Int) ≤ (t : Int) * ((ts.prod : Nat) : Int) :=
            mul_le_mul_of_nonneg_right (by omega) hP
          nlinarith
        have h3 : (((t :: ts).prod : Nat) : Int) = (t : Int) * ((ts.prod : Nat) : Int) := by
          push_cast [List.prod_cons]
          ring
        omega

/-- Order preservation: the hash is strictly monotone with respect to the
lexicographic order, on in-bounds coordinates. -/
theorem hashCoord_lt_of_coordLt {c d : Coord} {s : List Nat}
    (hc : inBoundsB c s = true) (hd : inBoundsB d s = true)
    (hlt : coordLt c d = true) :
    hashCoord (contiguous_strides s) c < hashCoord (contiguous_strides s) d := by
  induction c generalizing d s with
  | nil =>
    cases s with
    | nil =>
      cases d with
      | nil => simp [coordLt] at hlt
      | cons b bs => simp [inBoundsB] at hd
    | cons t ts => simp [inBoundsB] at hc
  | cons a c ih =>
    cases s with
    | nil => simp [inBoundsB] at hc
    | cons t ts =>
      cases d with
      | nil => simp [coordLt] at hlt
      | cons b bs =>
        simp only [inBoundsB, Bool.and_eq_true, decide_eq_true_eq] at hc hd
        obtain ⟨⟨ha0, hat⟩, hcrest⟩ := hc
        obtain ⟨⟨hb0, hbt⟩, hdrest⟩ := hd
        simp only [coordLt, Bool.or_eq_true, Bool.and_eq_true, beq_iff_eq,
          decide_eq_true_eq] at hlt
        rw [contiguous_strides, hashCoord_cons, hashCoord_cons]
        have hcb := hashCoord_bounds hcrest
        have hdb := hashCoord_bounds hdrest
        have hP : (0 : Int) ≤ ((ts.prod : Nat) : Int) := Int.natCast_nonneg _
        rcases hlt with hab | ⟨rfl, htl⟩
        · have : (a + 1) * ((ts.prod : Nat) : Int) ≤ b * ((ts.prod : Nat) : Int) :=
            mul_le_mul_of_nonneg_right (by omega) hP
          nlinarith [hcb.2, hdb.1]
        · have := ih hcrest hdrest htl
          omega

/-- Injectivity of the hash on in-bounds coordinates. -/
theorem hashCoord_inj {c d : Coord} {s : List Nat}
    (hc : inBoundsB c s = true) (hd : inBoundsB d s = true)
    (heq : hashCoord (contiguous_strides s) c = hashCoord (contiguous_strides s) d) :
    c = d := by
  rcases coordLt_trichotomy c d with h | h | h
  · exact h
  · have := hashCoord_lt_of_coordLt hc hd h
    omega
  · have := hashCoord_lt_of_coordLt hd hc h
    omega

theorem coordLt_iff_hash_lt {c d : Coord} {s : List Nat}
    (hc : inBoundsB c s = true) (hd : inBoundsB d s = true) :
    coordLt c d = true ↔
      hashCoord (contiguous_strides s) c < hashCoord (contiguous_strides s) d := by
  constructor
  · exact hashCoord_lt_of_coordLt hc hd
  · intro hlt
    rcases coordLt_trichotomy c d with rfl | h | h
    · omega
    · exact h
    · have := hashCoord_lt_of_coordLt hd hc h
      omega

theorem findBoundLoop_spec (L : List Int) (v : Int) (is_lower : Bool)
    (mono : ∀ i j : Nat, i ≤ j → j < L.length →
      fbAdv v is_lower (L.getD j 0) → fbAdv v is_lower (L.getD i 0)) :
    ∀ (fuel count first : Nat), count ≤ fuel → first + count ≤ L.length →
    (∀ j, j < first → fbAdv v is_lower (L.getD j 0)) →
    (∀ j, first + count ≤ j → j < L.length → ¬ fbAdv v is_lower (L.getD j 0)) →
    first ≤ findBoundLoop L v is_lower fuel first count ∧
    findBoundLoop L v is_lower fuel first count ≤ first + count ∧
    (∀ j, j < findBoundLoop L v is_lower fuel first count →
      fbAdv v is_lower (L.getD j 0)) ∧
    (∀ j, findBoundLoop L v is_lower fuel first count ≤ j → j < L.length →
      ¬ fbAdv v is_lower (L.getD j 0)) := by
  intro fuel
  induction fuel with
  | zero =>
    intro count first hcf hlen hpre hpost
    have hc0 : count = 0 := Nat.le_zero.mp hcf
    subst hc0
    refine ⟨Nat.le_refl _, by simp [findBoundLoop], ?_, ?_⟩
    · intro j hj; exact hpre j hj
    · intro j hj hjl; exact hpost j (by simpa [findBoundLoop] using hj) hjl
  | succ fuel ih =>
    intro count first hcf hlen hpre hpost
    by_cases hc0 : count = 0
    · subst hc0
      refine ⟨Nat.le_refl _, by simp [findBoundLoop], ?_, ?_⟩
      · intro j hj; exact hpre j (by simpa [findBoundLoop] using hj)
      · intro j hj hjl; exact hpost j (by simpa [findBoundLoop] using hj) hjl
    · have hcpos : 0 < count := Nat.pos_of_ne_zero hc0
      have hstep : count / 2 < count := Nat.div_lt_self hcpos (by omega)
      have hmid : first + count / 2 < L.length := by omega
      by_cases hcond :
          (if is_lower then L.getD (first + count / 2) 0 < v
           else v ≥ L.getD (first + count / 2) 0)
      · -- advance: everything up to the probed position satisfies `fbAdv`
        have hadvmid : fbAdv v is_lower (L.getD (first + count / 2) 0) := by
          unfold fbAdv
          by_cases hl : is_lower <;> simp [hl] at hcond ⊢ <;> omega
        have heq : findBoundLoop L v is_lower (fuel + 1) first count =
            findBoundLoop L v is_lower fuel (first + count / 2 + 1)
              (count - (count / 2 + 1)) := by
          rw [findBoundLoop]
          simp only [hc0, if_false]
          rw [if_pos hcond]
        have hres := ih (count - (count / 2 + 1)) (first + count / 2 + 1)
          (by omega) (by omega)
          (by
            intro j hj
            by_cases hjf : j < first
            · exact hpre j hjf
            · exact mono j (first + count / 2) (by omega) hmid hadvmid)
          (by intro j hj hjl; exact hpost j (by omega) hjl)
        rw [heq]
        exact ⟨by omega, by omega, hres.2.2.1, hres.2.2.2⟩
      · -- retreat: nothing from the probed position on satisfies `fbAdv`
        have hnadvmid : ¬ fbAdv v is_lower (L.getD (first + count / 2) 0) := by
          unfold fbAdv
          by_cases hl : is_lower <;> simp [hl] at hcond ⊢ <;> omega
        have heq : findBoundLoop L v is_lower (fuel + 1) first count =
            findBoundLoop L v is_lower fuel first (count / 2) := by
          rw [findBoundLoop]
          simp only [hc0, if_false]
          rw [if_neg hcond]
        have hres := ih (count / 2) first (by omega) (by omega) hpre
          (by
            intro j hj hjl
            intro hadv
            exact hnadvmid (mono (first + count / 2) j (by omega) hjl hadv))
        rw [heq]
        exact ⟨hres.1, by omega, hres.2.2.1, hres.2.2.2⟩

/-- On a list sorted in nondecreasing order, the positions before
`find_bound` satisfy `fbAdv` and the positions from it on do not. -/
theorem find_bound_split (L : List Int) (v : Int) (is_lower : Bool)
    (hs : List.Pairwise (· ≤ ·) L) :
    find_bound L v is_lower ≤ L.length ∧
    (∀ j, j < find_bound L v is_lower → fbAdv v is_lower (L.getD j 0)) ∧
    (∀ j, find_bound L v is_lower ≤ j → j < L.length →
      ¬ fbAdv v is_lower (L.getD j 0)) := by
  have mono : ∀ i j : Nat, i ≤ j → j < L.length →
      fbAdv v is_lower (L.getD j 0) → fbAdv v is_lower (L.getD i 0) := by
    intro i j hij hjl hadv
    rcases Nat.lt_or_ge i j with hlt | hge
    · have hij' : L.getD i 0 ≤ L.getD j 0 := by
        have hi : i < L.length := by omega
        rw [List.getD_eq_getElem _ _ hi, List.getD_eq_getElem _ _ hjl]
        exact List.pairwise_iff_getElem.mp hs i j hi hjl hlt
      unfold fbAdv at hadv ⊢
      by_cases hl : is_lower <;> simp [hl] at hadv hij' ⊢ <;> omega
    · have : i = j := by omega
      subst this; exact hadv
  have := findBoundLoop_spec L v is_lower mono (L.length + 1) L.length 0
    (by omega) (by omega) (by intro j hj; omega)
    (by intro j hj hjl; omega)
  exact ⟨by simpa [find_bound] using this.2.1,
    fun j hj => this.2.2.1 j hj, fun j hj hjl => this.2.2.2 j hj hjl⟩

/-- A list split by a predicate at position `r` has exactly `r` elements
satisfying it. -/
theorem countP_of_split (p : Int → Bool) :
    ∀ (L : List Int) (r : Nat), r ≤ L.length →
    (∀ j, j < r → p (L.getD j 0) = true) →
    (∀ j, r ≤ j → j < L.length → p (L.getD j 0) = false) →
    L.countP p = r := by
  intro L
  induction L with
  | nil => intro r hr _ _; simp at hr; simpa using hr.symm
  | cons x xs ih =>
    intro r hr hpre hpost
    cases r with
    | zero =>
      have hx : p x = false := by
        have := hpost 0 (by omega) (by simp)
        simpa using this
      have hxs : xs.countP p = 0 := by
        apply ih 0 (by omega) (by intro j hj; omega)
        intro j _ hjl
        have := hpost (j + 1) (by omega) (by simp; omega)
        simpa using this
      simp [List.countP_cons, hx, hxs]
    | succ r' =>
      have hx : p x = true := by
        have := hpre 0 (by omega)
        simpa using this
      have hxs : xs.countP p = r' := by
        apply ih r' (by simp at hr; omega)
        · intro j hj
          have := hpre (j + 1) (by omega)
          simpa using this
        · intro j hj hjl
          have := hpost (j + 1) (by omega) (by simp; omega)
          simpa using this
      simp [List.countP_cons, hx, hxs]

theorem find_bound_lower_eq (L : List Int) (v : Int)
    (hs : List.Pairwise (· ≤ ·) L) :
    find_bound L v true = L.countP (fun x => decide (x < v)) := by
  obtain ⟨hle, hpre, hpost⟩ := find_bound_split L v true hs
  refine (countP_of_split _ L _ hle ?_ ?_).symm
  · intro j hj
    have := hpre j hj
    simpa [fbAdv] using this
  · intro j hj hjl
    have := hpost j hj hjl
    simpa [fbAdv] using this

theorem find_bound_upper_eq (L : List Int) (v : Int)
    (hs : List.Pairwise (· ≤ ·) L) :
    find_bound L v false = L.countP (fun x => decide (x ≤ v)) := by
  obtain ⟨hle, hpre, hpost⟩ := find_bound_split L v false hs
  refine (countP_of_split _ L _ hle ?_ ?_).symm
  · intro j hj
    have := hpre j hj
    simpa [fbAdv] using this
  · intro j hj hjl
    have := hpost j hj hjl
    simpa [fbAdv] using this

/-- Counting split: `#{x ≤ v} = #{x < v} + #{x = v}` in any integer list. -/
theorem countP_le_eq_countP_lt_add_count (L : List Int) (v : Int) :
    L.countP (fun x => decide (x ≤ v)) =
      L.countP (fun x => decide (x < v)) + L.count v := by
  induction L with
  | nil => simp
  | cons x xs ih =>
    rw [List.count_cons]
    rcases lt_trichotomy x v with h | h | h
    · have h1 : (fun x => decide (x ≤ v)) x = true := by simp; omega
      have h2 : (fun x => decide (x < v)) x = true := by simp; omega
      have h3 : (x == v) = false := by simp; omega
      simp [List.countP_cons, h1, h2, h3]
      omega
    · subst h
      have h1 : (fun y => decide (y ≤ x)) x = true := by simp
      have h2 : (fun y => decide (y < x)) x = false := by simp
      have h3 : (x == x) = true := by simp
      simp [List.countP_cons, h1, h2, h3]
      omega
    · have h1 : (fun y => decide (y ≤ v)) x = false := by simp; omega
      have h2 : (fun y => decide (y < v)) x = false := by simp; omega
      have h3 : (x == v) = false := by simp; omega
      simp [List.countP_cons, h1, h2, h3]
      omega

/-- On a sorted list, the pair of bounds returned by `find_bound`
delimits exactly the elements equal to the searched value. -/
theorem find_bound_count (L : List Int) (v : Int)
    (hs : List.Pairwise (· ≤ ·) L) :
    find_bound L v true ≤ find_bound L v false ∧
    find_bound L v false - find_bound L v true = L.count v := by
  rw [find_bound_lower_eq L v hs, find_bound_upper_eq L v hs]
  have := countP_le_eq_countP_lt_add_count L v
  omega

theorem orderedInsertBy_perm {α : Type} (le : α → α → Bool) (a : α) :
    ∀ l : List α, (orderedInsertBy le a l).Perm (a :: l) := by
  intro l
  induction l with
  | nil => simp [orderedInsertBy]
  | cons b l ih =>
    rw [orderedInsertBy]
    by_cases h : le a b
    · rw [if_pos h]
    · rw [if_neg h]
      exact (List.Perm.cons b ih).trans (List.Perm.swap a b l)

theorem insertionSortBy_perm {α : Type} (le : α → α → Bool) :
    ∀ l : List α, (insertionSortBy le l).Perm l := by
  intro l
  induction l with
  | nil => simp [insertionSortBy]
  | cons a l ih =>
    rw [insertionSortBy]
    exact (orderedInsertBy_perm le a _).trans (List.Perm.cons a ih)

theorem orderedInsertBy_pairwise {α : Type} (le : α → α → Bool)
    (htrans : ∀ a b c, le a b = true → le b c = true → le a c = true)
    (htot : ∀ a b, le a b = true ∨ le b a = true) (a : α) :
    ∀ l : List α, l.Pairwise (fun x y => le x y = true) →
      (orderedInsertBy le a l).Pairwise (fun x y => le x y = true) := by
  intro l
  induction l with
  | nil => intro _; simp [orderedInsertBy]
  | cons b l ih =>
    intro hl
    rw [List.pairwise_cons] at hl
    obtain ⟨hb, hl'⟩ := hl
    rw [orderedInsertBy]
    by_cases h : le a b
    · rw [if_pos h]
      refine List.Pairwise.cons ?_ (List.Pairwise.cons hb hl')
      intro y hy
      rcases List.mem_cons.mp hy with rfl | hy'
      · exact h
      · exact htrans a b y h (hb y hy')
    · rw [if_neg h]
      have hba : le b a = true := by
        rcases htot a b with h' | h'
        · exact absurd h' h
        · exact h'
      refine List.Pairwise.cons ?_ (ih hl')
      intro y hy
      have := (orderedInsertBy_perm le a l).mem_iff.mp hy
      rcases List.mem_cons.mp this with rfl | hy'
      · exact hba
      · exact hb y hy'

theorem insertionSortBy_pairwise {α : Type} (le : α → α → Bool)
    (htrans : ∀ a b c, le a b = true → le b c = true → le a c = true)
    (htot : ∀ a b, le a b = true ∨ le b a = true) :
    ∀ l : List α, (insertionSortBy le l).Pairwise (fun x y => le x y = true) := by
  intro l
  induction l with
  | nil => simp [insertionSortBy]
  | cons a l ih =>
    rw [insertionSortBy]
    exact orderedInsertBy_pairwise le htrans htot a _ ih

theorem withIdx_map_fst : ∀ (xs : List Int) (k : Nat),
    (withIdx xs k).map Prod.fst = xs := by
  intro xs
  induction xs with
  | nil => intro k; rfl
  | cons x xs ih => intro k; simp [withIdx, ih]

theorem withIdx_length : ∀ (xs : List Int) (k : Nat),
    (withIdx xs k).length = xs.length := by
  intro xs
  induction xs with
  | nil => intro k; rfl
  | cons x xs ih => intro k; simp [withIdx, ih]

theorem mem_withIdx : ∀ (xs : List Int) (k : Nat) (p : Int × Nat),
    p ∈ withIdx xs k → ∃ i, i < xs.length ∧ p = (xs.getD i 0, k + i) := by
  intro xs
  induction xs with
  | nil => intro k p hp; simp [withIdx] at hp
  | cons x xs ih =>
    intro k p hp
    rw [withIdx, List.mem_cons] at hp
    rcases hp with rfl | hp
    · exact ⟨0, by simp⟩
    · obtain ⟨i, hi, rfl⟩ := ih (k + 1) p hp
      exact ⟨i + 1, by simpa using hi, by simp; omega⟩

theorem cumsum_length : ∀ l : List Nat, (cumsum l).length = l.length := by
  intro l
  induction l with
  | nil => rfl
  | cons a as ih => simp [cumsum, ih]

theorem cumsum_getD : ∀ (l : List Nat) (k : Nat), k < l.length →
    (cumsum l).getD k 0 = (l.take (k + 1)).sum := by
  intro l
  induction l with
  | nil => intro k hk; simp at hk
  | cons a as ih =>
    intro k hk
    cases k with
    | zero => simp [cumsum]
    | succ k =>
      have hk' : k < as.length := by simpa using hk
      have hk'' : k < (cumsum as).length := by rw [cumsum_length]; exact hk'
      have hmap : ((cumsum as).map (a + ·)).getD k 0 = a + (cumsum as).getD k 0 := by
        rw [List.getD_eq_getElem _ _ (by simpa using hk''),
          List.getD_eq_getElem _ _ hk'']
        simp
      calc (cumsum (a :: as)).getD (k + 1) 0
          = ((cumsum as).map (a + ·)).getD k 0 := by
            rw [cumsum, List.getD_cons_succ]
        _ = a + (cumsum as).getD k 0 := hmap
        _ = a + (as.take (k + 1)).sum := by rw [ih k hk']
        _ = ((a :: as).take (k + 1 + 1)).sum := by
            simp [List.take_succ_cons, List.sum_cons]

theorem map_add_getLastD : ∀ (l : List Nat) (a d : Nat),
    (l.map (a + ·)).getLastD (a + d) = a + l.getLastD d := by
  intro l
  induction l with
  | nil => intro a d; rfl
  | cons x t ih =>
    intro a d
    simp only [List.map_cons, List.getLastD_cons]
    exact ih a x

theorem cumsum_getLastD : ∀ l : List Nat, (cumsum l).getLastD 0 = l.sum := by
  intro l
  induction l with
  | nil => rfl
  | cons a as ih =>
    rw [cumsum, List.getLastD_cons]
    have := map_add_getLastD (cumsum as) a 0
    simp only [Nat.add_zero] at this
    rw [this, ih, List.sum_cons]

theorem sum_take_mono : ∀ (l : List Nat) (i j : Nat), i ≤ j →
    (l.take i).sum ≤ (l.take j).sum := by
  intro l
  induction l with
  | nil => intro i j _; simp
  | cons a as ih =>
    intro i j hij
    cases i with
    | zero => simp
    | succ i =>
      cases j with
      | zero => omega
      | succ j =>
        simp only [List.take_succ_cons, List.sum_cons]
        have := ih i j (by omega)
        omega

theorem selSourceLoop_length : ∀ (counts : List Nat) (k : Nat),
    (selSourceLoop k counts).length = counts.sum := by
  intro counts
  induction counts with
  | nil => intro k; rfl
  | cons c cs ih => intro k; simp [selSourceLoop, ih]

theorem selSource_length (counts : List Nat) :
    (selSource counts).length = counts.sum := selSourceLoop_length counts 0

theorem selProbeLoop_length (argsort : List Nat) :
    ∀ (cfs : List (Nat × Nat)),
    (selProbeLoop argsort cfs).length = (cfs.map Prod.fst).sum := by
  intro cfs
  induction cfs with
  | nil => rfl
  | cons cf cfs ih =>
    obtain ⟨c, f⟩ := cf
    simp [selProbeLoop, ih]

theorem pairwiseLtB_iff : ∀ cs : List Coord,
    pairwiseLtB cs = true ↔ cs.Pairwise (fun a b => coordLt a b = true) := by
  intro cs
  induction cs with
  | nil => simp [pairwiseLtB]
  | cons c cs ih =>
    rw [pairwiseLtB, List.pairwise_cons, Bool.and_eq_true, List.all_eq_true, ih]

theorem Valid.values_length {t : Tensor D V} (h : t.Valid) :
    t.values.length = t.indices.length := by
  simp only [Tensor.Valid, Tensor.ValidB, Bool.and_eq_true, beq_iff_eq] at h
  exact h.1.1.1.2

theorem Valid.dims {t : Tensor D V} (h : t.Valid) :
    t.sparse_dim + t.dense_dim = t.shape.length := by
  simp only [Tensor.Valid, Tensor.ValidB, Bool.and_eq_true, beq_iff_eq] at h
  exact h.1.1.2

theorem Valid.sparse {t : Tensor D V} (h : t.Valid) : t.is_sparse = true := by
  simp only [Tensor.Valid, Tensor.ValidB, Bool.and_eq_true, beq_iff_eq] at h
  exact h.1.1.1.1

theorem Valid.bounds {t : Tensor D V} (h : t.Valid) :
    ∀ c ∈ t.indices, inBoundsB c (t.shape.take t.sparse_dim) = true := by
  simp only [Tensor.Valid, Tensor.ValidB, Bool.and_eq_true, beq_iff_eq,
    List.all_eq_true] at h
  exact h.1.2

theorem Valid.sorted {t : Tensor D V} (h : t.Valid) (hc : t.coalesced = true) :
    t.indices.Pairwise (fun a b => coordLt a b = true) := by
  simp only [Tensor.Valid, Tensor.ValidB, Bool.and_eq_true, beq_iff_eq,
    Bool.or_eq_true, Bool.not_eq_true'] at h
  rcases h.2 with h' | h'
  · rw [hc] at h'; exact Bool.noConfusion h'
  · exact (pairwiseLtB_iff _).mp h'

theorem mergeDups_fst_mem (vadd : V → V → V) :
    ∀ (l : List (Coord × V)) (c : Coord),
      c ∈ (mergeDups vadd l).map Prod.fst ↔ c ∈ l.map Prod.fst := by
  intro l
  induction l with
  | nil => intro c; simp [mergeDups]
  | cons p rest ih =>
    intro c
    rw [mergeDups]
    cases hm : mergeDups vadd rest with
    | nil =>
      have hempty := ih c
      rw [hm] at hempty
      simp only [List.map_nil, List.not_mem_nil, false_iff] at hempty
      rw [mergeStep]
      simp only [List.map_cons, List.mem_cons, List.map_nil,
        List.not_mem_nil, or_false]
      constructor
      · intro h; exact Or.inl h
      · intro h
        rcases h with h | h
        · exact h
        · exact absurd h hempty
    | cons q qs =>
      have hmem := ih c
      rw [hm] at hmem
      rw [mergeStep]
      by_cases hpq : p.1 = q.1
      · rw [if_pos hpq]
        simp only [List.map_cons, List.mem_cons] at hmem ⊢
        rw [← hmem]
        constructor
        · intro h
          rcases h with h | h
          · exact Or.inl h
          · exact Or.inr (Or.inr h)
        · intro h
          rcases h with h | h | h
          · exact Or.inl h
          · exact Or.inl (by rw [h, hpq])
          · exact Or.inr h
      · rw [if_neg hpq]
        simp only [List.map_cons, List.mem_cons] at hmem ⊢
        rw [← hmem]

theorem mergeDups_pairwise (vadd : V → V → V) :
    ∀ l : List (Coord × V),
      l.Pairwise (fun p q => coordLe p.1 q.1 = true) →
      (mergeDups vadd l).Pairwise (fun p q => coordLt p.1 q.1 = true) := by
  intro l
  induction l with
  | nil => intro _; simp [mergeDups]
  | cons p rest ih =>
    intro hl
    rw [List.pairwise_cons] at hl
    obtain ⟨hp, hrest⟩ := hl
    rw [mergeDups]
    cases hm : mergeDups vadd rest with
    | nil => rw [mergeStep]; simp
    | cons q qs =>
      have hmerged := ih hrest
      rw [hm] at hmerged
      have hqmem : ∀ r ∈ q :: qs, r.1 ∈ rest.map Prod.fst := by
        intro r hr
        have : r.1 ∈ (mergeDups vadd rest).map Prod.fst := by
          rw [hm]; exact List.mem_map_of_mem Prod.fst hr
        rw [mergeDups_fst_mem] at this
        exact this
      have hple : ∀ r ∈ q :: qs, coordLe p.1 r.1 = true := by
        intro r hr
        obtain ⟨s, hs, hsr⟩ := List.mem_map.mp (hqmem r hr)
        have := hp s hs
        rw [hsr] at this
        exact this
      rw [mergeStep]
      by_cases hpq : p.1 = q.1
      · rw [if_pos hpq]
        rw [List.pairwise_cons] at hmerged ⊢
        refine ⟨?_, hmerged.2⟩
        intro r hr
        have := hmerged.1 r hr
        simpa [hpq] using this
      · rw [if_neg hpq]
        rw [List.pairwise_cons]
        refine ⟨?_, hmerged⟩
        intro r hr
        rcases List.mem_cons.mp hr with rfl | hr'
        · exact coordLt_of_le_of_ne (hple r hr) hpq
        · have hq : coordLt q.1 r.1 = true :=
            (List.pairwise_cons.mp hmerged).1 r hr'
          have hpq' : coordLt p.1 q.1 = true :=
            coordLt_of_le_of_ne (hple q (List.mem_cons_self q qs)) hpq
          exact coordLt_trans hpq' hq

theorem coalesce_of_true (vadd : V → V → V) (t : Tensor D V)
    (h : t.coalesced = true) : t.coalesce vadd = t := by
  rw [Tensor.coalesce, if_pos h]

theorem coalesce_of_false (vadd : V → V → V) (t : Tensor D V)
    (h : t.coalesced = false) :
    t.coalesce vadd =
      { t with indices := (coalescePairs vadd t).map Prod.fst,
               values := (coalescePairs vadd t).map Prod.snd,
               coalesced := true } := by
  rw [Tensor.coalesce, if_neg (by rw [h]; exact Bool.false_ne_true)]
  rfl

theorem coalesce_coalesced (vadd : V → V → V) (t : Tensor D V) :
    (t.coalesce vadd).coalesced = true := by
  cases h : t.coalesced with
  | true => rw [coalesce_of_true vadd t h]; exact h
  | false => rw [coalesce_of_false vadd t h]

theorem coalesce_fields (vadd : V → V → V) (t : Tensor D V) :
    (t.coalesce vadd).is_sparse = t.is_sparse ∧
    (t.coalesce vadd).dtype = t.dtype ∧
    (t.coalesce vadd).sparse_dim = t.sparse_dim ∧
    (t.coalesce vadd).dense_dim = t.dense_dim ∧
    (t.coalesce vadd).shape = t.shape := by
  cases h : t.coalesced with
  | true => rw [coalesce_of_true vadd t h]; exact ⟨rfl, rfl, rfl, rfl, rfl⟩
  | false => rw [coalesce_of_false vadd t h]; exact ⟨rfl, rfl, rfl, rfl, rfl⟩

theorem coalesce_mem (vadd : V → V → V) (t : Tensor D V) (h : t.Valid) :
    ∀ c : Coord, c ∈ (t.coalesce vadd).indices ↔ c ∈ t.indices := by
  intro c
  cases hc : t.coalesced with
  | true => rw [coalesce_of_true vadd t hc]
  | false =>
    rw [coalesce_of_false vadd t hc]
    show c ∈ (coalescePairs vadd t).map Prod.fst ↔ c ∈ t.indices
    rw [coalescePairs, mergeDups_fst_mem]
    have hperm := insertionSortBy_perm
      (fun p q : Coord × V => coordLe p.1 q.1) (t.indices.zip t.values)
    rw [(hperm.map Prod.fst).mem_iff (a := c)]
    rw [List.map_fst_zip _ _ (le_of_eq (Valid.values_length h).symm)]

theorem coalesce_valid (vadd : V → V → V) (t : Tensor D V) (h : t.Valid) :
    (t.coalesce vadd).Valid := by
  cases hc : t.coalesced with
  | true => rw [coalesce_of_true vadd t hc]; exact h
  | false =>
    have hmem : ∀ c : Coord, c ∈ (coalescePairs vadd t).map Prod.fst ↔
        c ∈ t.indices := by
      intro c
      have := coalesce_mem vadd t h c
      rw [coalesce_of_false vadd t hc] at this
      exact this
    rw [coalesce_of_false vadd t hc]
    simp only [Tensor.Valid, Tensor.ValidB, Bool.and_eq_true, beq_iff_eq,
      List.all_eq_true, Bool.or_eq_true, Bool.not_eq_true']
    refine ⟨⟨⟨⟨Valid.sparse h, by simp⟩, Valid.dims h⟩, ?_⟩, ?_⟩
    · intro c hcmem
      exact Valid.bounds h c ((hmem c).mp hcmem)
    · right
      rw [pairwiseLtB_iff]
      have hsorted := insertionSortBy_pairwise
        (fun p q : Coord × V => coordLe p.1 q.1)
        (fun a b c hab hbc => coordLe_trans hab hbc)
        (fun a b => coordLe_total a.1 b.1)
        (t.indices.zip t.values)
      have hmerged := mergeDups_pairwise vadd _ hsorted
      exact List.pairwise_map.mpr hmerged

theorem roleSelect_cases (vadd : V → V → V) (x y : Tensor D V) :
    ((roleSelect vadd x y).2 = y ∧
      ((roleSelect vadd x y).1 = x ∨ (roleSelect vadd x y).1 = x.coalesce vadd)) ∨
    ((roleSelect vadd x y).2 = x ∧
      ((roleSelect vadd x y).1 = y ∨ (roleSelect vadd x y).1 = y.coalesce vadd)) := by
  simp only [roleSelect]
  by_cases h1 : (x.coalesced != y.coalesced) = true
  · simp only [if_pos h1]
    by_cases h2 : x.coalesced = true
    · simp only [if_pos h2]
      simp
    · simp only [if_neg h2]
      simp
  · simp only [if_neg h1]
    by_cases h2 : x.nnz ≥ y.nnz
    · simp only [if_pos h2]
      by_cases h3 : x.nnz / (x.shape.take x.sparse_dim).prod > 50
      · simp only [if_pos h3]
        simp
      · simp only [if_neg h3]
        simp
    · simp only [if_neg h2]
      by_cases h3 : y.nnz / (y.shape.take y.sparse_dim).prod > 50
      · simp only [if_pos h3]
        simp
      · simp only [if_neg h3]
        simp

theorem pipeline_pc (vadd : V → V → V) (x_ y_ : Tensor D V) (bs : List Nat)
    (comm : Bool) :
    (pipeline vadd x_ y_ bs comm).pc =
      (roleSelect vadd (if comm then x_ else x_.coalesce vadd)
        (if comm then y_ else y_.coalesce vadd)).1 := rfl

theorem pipeline_src (vadd : V → V → V) (x_ y_ : Tensor D V) (bs : List Nat)
    (comm : Bool) :
    (pipeline vadd x_ y_ bs comm).src =
      (roleSelect vadd (if comm then x_ else x_.coalesce vadd)
        (if comm then y_ else y_.coalesce vadd)).2 := rfl

theorem pipeline_hash_coeffs (vadd : V → V → V) (x_ y_ : Tensor D V)
    (bs : List Nat) (comm : Bool) :
    (pipeline vadd x_ y_ bs comm).hash_coeffs =
      contiguous_strides (bs.take (pipeline vadd x_ y_ bs comm).pc.sparse_dim) := rfl

theorem pipeline_sorted_hash (vadd : V → V → V) (x_ y_ : Tensor D V)
    (bs : List Nat) (comm : Bool) :
    (pipeline vadd x_ y_ bs comm).sorted_hash =
      (sortStage (pipeline vadd x_ y_ bs comm).pc
        (hashesOf (pipeline vadd x_ y_ bs comm).hash_coeffs
          (pipeline vadd x_ y_ bs comm).pc.indices)).1 := rfl

theorem pipeline_argsort (vadd : V → V → V) (x_ y_ : Tensor D V)
    (bs : List Nat) (comm : Bool) :
    (pipeline vadd x_ y_ bs comm).argsort_hash =
      (sortStage (pipeline vadd x_ y_ bs comm).pc
        (hashesOf (pipeline vadd x_ y_ bs comm).hash_coeffs
          (pipeline vadd x_ y_ bs comm).pc.indices)).2 := rfl

theorem pipeline_counts (vadd : V → V → V) (x_ y_ : Tensor D V)
    (bs : List Nat) (comm : Bool) :
    (pipeline vadd x_ y_ bs comm).counts =
      (joinRecords (pipeline vadd x_ y_ bs comm).sorted_hash
        (pipeline vadd x_ y_ bs comm).hash_coeffs
        (pipeline vadd x_ y_ bs comm).src.indices).map Prod.fst := rfl

theorem pipeline_firsts (vadd : V → V → V) (x_ y_ : Tensor D V)
    (bs : List Nat) (comm : Bool) :
    (pipeline vadd x_ y_ bs comm).firsts =
      (joinRecords (pipeline vadd x_ y_ bs comm).sorted_hash
        (pipeline vadd x_ y_ bs comm).hash_coeffs
        (pipeline vadd x_ y_ bs comm).src.indices).map Prod.snd := rfl

theorem pipeline_sel_src (vadd : V → V → V) (x_ y_ : Tensor D V)
    (bs : List Nat) (comm : Bool) :
    (pipeline vadd x_ y_ bs comm).sel_src =
      selSource (pipeline vadd x_ y_ bs comm).counts := rfl

theorem pipeline_sel_pc (vadd : V → V → V) (x_ y_ : Tensor D V)
    (bs : List Nat) (comm : Bool) :
    (pipeline vadd x_ y_ bs comm).sel_pc =
      selProbe (pipeline vadd x_ y_ bs comm).counts
        (pipeline vadd x_ y_ bs comm).firsts
        (pipeline vadd x_ y_ bs comm).argsort_hash := rfl

theorem GoodSide.inbounds {t : Tensor D V} {sd : Nat} {bsp : List Nat}
    (h : GoodSide t sd bsp) : ∀ c ∈ t.indices, inBoundsB c bsp = true := by
  intro c hc
  have := Valid.bounds h.1 c hc
  rwa [h.2.2] at this

theorem GoodSide.coalesce {t : Tensor D V} {sd : Nat} {bsp : List Nat}
    (h : GoodSide t sd bsp) (vadd : V → V → V) :
    GoodSide (t.coalesce vadd) sd bsp := by
  obtain ⟨hv, hsd, hsp⟩ := h
  obtain ⟨_, _, h3, _, h5⟩ := coalesce_fields vadd t
  refine ⟨coalesce_valid vadd t hv, by rw [h3, hsd], ?_⟩
  rw [h3, h5, hsp]

theorem pipeline_sides_good (vadd : V → V → V) (x_ y_ : Tensor D V)
    (bs : List Nat) (comm : Bool) (sd : Nat) (bsp : List Nat)
    (hx : GoodSide x_ sd bsp) (hy : GoodSide y_ sd bsp) :
    GoodSide (pipeline vadd x_ y_ bs comm).pc sd bsp ∧
    GoodSide (pipeline vadd x_ y_ bs comm).src sd bsp := by
  have hx' : GoodSide (if comm then x_ else x_.coalesce vadd) sd bsp := by
    by_cases h : comm = true
    · simp only [h, if_true]; exact hx
    · simp only [h, if_false]; exact hx.coalesce vadd
  have hy' : GoodSide (if comm then y_ else y_.coalesce vadd) sd bsp := by
    by_cases h : comm = true
    · simp only [h, if_true]; exact hy
    · simp only [h, if_false]; exact hy.coalesce vadd
  rw [pipeline_pc, pipeline_src]
  rcases roleSelect_cases vadd (if comm then x_ else x_.coalesce vadd)
      (if comm then y_ else y_.coalesce vadd) with
    ⟨h2, h1 | h1⟩ | ⟨h2, h1 | h1⟩ <;> rw [h1, h2]
  · exact ⟨hx', hy'⟩
  · exact ⟨hx'.coalesce vadd, hy'⟩
  · exact ⟨hy', hx'⟩
  · exact ⟨hy'.coalesce vadd, hx'⟩

theorem hashesOf_length (coeffs : List Int) (cs : List Coord) :
    (hashesOf coeffs cs).length = cs.length := List.length_map cs _

theorem hashesOf_getD (coeffs : List Int) (cs : List Coord) (k : Nat)
    (hk : k < cs.length) :
    (hashesOf coeffs cs).getD k 0 = hashCoord coeffs (cs.getD k []) := by
  rw [List.getD_eq_getElem _ _ (by rw [hashesOf_length]; exact hk),
    List.getD_eq_getElem _ _ hk]
  simp [hashesOf]

/-- Everything the join needs from the sort stage: the sorted hashes are
nondecreasing, a permutation of the probe hashes, and the `argsort`
permutation points each sorted slot back at its original position. -/
theorem sortStage_spec (pc : Tensor D V) (bsp : List Nat)
    (hpcv : pc.Valid) (hpcb : ∀ c ∈ pc.indices, inBoundsB c bsp = true) :
    (sortStage pc (hashesOf (contiguous_strides bsp) pc.indices)).1.Pairwise
      (· ≤ ·) ∧
    (sortStage pc (hashesOf (contiguous_strides bsp) pc.indices)).1.Perm
      (hashesOf (contiguous_strides bsp) pc.indices) ∧
    (sortStage pc (hashesOf (contiguous_strides bsp) pc.indices)).2.length =
      pc.nnz ∧
    (∀ i, i < pc.nnz →
      (sortStage pc (hashesOf (contiguous_strides bsp) pc.indices)).2.getD i 0 <
        pc.nnz ∧
      (sortStage pc (hashesOf (contiguous_strides bsp) pc.indices)).1.getD i 0 =
        (hashesOf (contiguous_strides bsp) pc.indices).getD
          ((sortStage pc (hashesOf (contiguous_strides bsp) pc.indices)).2.getD
            i 0) 0) := by
  set pcH := hashesOf (contiguous_strides bsp) pc.indices with hpcH
  have hlen : pcH.length = pc.nnz := hashesOf_length _ _
  by_cases hc : pc.coalesced = true
  · -- already coalesced: identity permutation, hashes already sorted
    have hsorted : pcH.Pairwise (· ≤ ·) := by
      rw [hpcH, hashesOf, List.pairwise_map, List.pairwise_iff_getElem]
      intro i j hi hj hij
      have hp := List.pairwise_iff_getElem.mp (Valid.sorted hpcv hc) i j hi hj hij
      have hbi := hpcb _ (List.getElem_mem hi)
      have hbj := hpcb _ (List.getElem_mem hj)
      exact le_of_lt (hashCoord_lt_of_coordLt hbi hbj hp)
    have hss : sortStage pc pcH = (pcH, List.range pc.nnz) := by
      rw [sortStage, if_pos hc]
    rw [hss]
    refine ⟨hsorted, List.Perm.refl _, by simp, ?_⟩
    intro i hi
    have hr : (List.range pc.nnz).getD i 0 = i := by
      rw [List.getD_eq_getElem _ _ (by simpa using hi)]
      simp
    exact ⟨by rw [hr]; exact hi, by rw [hr]⟩
  · -- uncoalesced: sort the (hash, position) pairs
    have hss : sortStage pc pcH = sortWithIndices pcH := by
      rw [sortStage, if_neg hc]
    rw [hss]
    have hsw1 : (sortWithIndices pcH).1 =
        (insertionSortBy (fun p q : Int × Nat => decide (p.1 ≤ q.1))
          (withIdx pcH 0)).map Prod.fst := rfl
    have hsw2 : (sortWithIndices pcH).2 =
        (insertionSortBy (fun p q : Int × Nat => decide (p.1 ≤ q.1))
          (withIdx pcH 0)).map Prod.snd := rfl
    rw [hsw1, hsw2]
    set es := insertionSortBy (fun p q : Int × Nat => decide (p.1 ≤ q.1))
      (withIdx pcH 0) with hes
    have hperm : es.Perm (withIdx pcH 0) :=
      insertionSortBy_perm (fun p q : Int × Nat => decide (p.1 ≤ q.1)) _
    have heslen : es.length = pcH.length := by
      rw [hperm.length_eq, withIdx_length]
    have hpair : (es.map Prod.fst).Pairwise (· ≤ ·) := by
      have hps := insertionSortBy_pairwise
        (fun p q : Int × Nat => decide (p.1 ≤ q.1))
        (fun a b c hab hbc => by
          simp only [decide_eq_true_eq] at hab hbc ⊢
          exact le_trans hab hbc)
        (fun a b => by
          simp only [decide_eq_true_eq]
          exact le_total a.1 b.1)
        (withIdx pcH 0)
      rw [← hes] at hps
      rw [List.pairwise_map]
      exact hps.imp (by intro a b h; simpa using h)
    have hpermf : (es.map Prod.fst).Perm pcH := by
      have := hperm.map Prod.fst
      rwa [withIdx_map_fst] at this
    refine ⟨hpair, hpermf, by simp [heslen, hlen], ?_⟩
    intro i hi
    have hi' : i < es.length := by rw [heslen, hlen]; exact hi
    have hmem : es[i] ∈ withIdx pcH 0 := hperm.mem_iff.mp (List.getElem_mem hi')
    obtain ⟨j, hj, hpe⟩ := mem_withIdx pcH 0 _ hmem
    have hsndD : (es.map Prod.snd).getD i 0 = es[i].2 := by
      rw [List.getD_eq_getElem _ _ (by simpa using hi')]
      simp
    have hfstD : (es.map Prod.fst).getD i 0 = es[i].1 := by
      rw [List.getD_eq_getElem _ _ (by simpa using hi')]
      simp
    constructor
    · rw [hsndD, hpe]
      simp only [Nat.zero_add]
      rwa [hlen] at hj
    · rw [hfstD, hsndD, hpe]
      simp

theorem getD_mem {α : Type} (l : List α) (k : Nat) (d : α)
    (hk : k < l.length) : l.getD k d ∈ l := by
  rw [List.getD_eq_getElem _ _ hk]
  exact List.getElem_mem hk

theorem fbAdv_true (v x : Int) : fbAdv v true x ↔ x < v := by simp [fbAdv]

theorem fbAdv_false (v x : Int) : fbAdv v false x ↔ x ≤ v := by simp [fbAdv]

/-- Between the lower and the upper bound, a sorted list holds exactly
the searched value. -/
theorem find_bound_span (L : List Int) (v : Int) (hs : L.Pairwise (· ≤ ·)) :
    ∀ j, find_bound L v true ≤ j → j < find_bound L v false →
      j < L.length ∧ L.getD j 0 = v := by
  obtain ⟨hlel, hprel, hpostl⟩ := find_bound_split L v true hs
  obtain ⟨hleu, hpreu, hpostu⟩ := find_bound_split L v false hs
  intro j hjl hju
  have hjlen : j < L.length := lt_of_lt_of_le hju hleu
  refine ⟨hjlen, ?_⟩
  have h1 := hpostl j hjl hjlen
  have h2 := hpreu j hju
  rw [fbAdv_true] at h1
  rw [fbAdv_false] at h2
  omega

theorem joinRecords_length (L coeffs : List Int) (src_cs : List Coord) :
    (joinRecords L coeffs src_cs).length = src_cs.length :=
  List.length_map src_cs _

theorem joinRecords_getD (L coeffs : List Int) (src_cs : List Coord)
    (k : Nat) (hk : k < src_cs.length) :
    (joinRecords L coeffs src_cs).getD k (0, 0) =
      (find_bound L (hashCoord coeffs (src_cs.getD k [])) false -
         find_bound L (hashCoord coeffs (src_cs.getD k [])) true,
       find_bound L (hashCoord coeffs (src_cs.getD k [])) true) := by
  rw [List.getD_eq_getElem _ _ (by rw [joinRecords_length]; exact hk),
    List.getD_eq_getElem _ _ hk]
  simp [joinRecords]

/-- With a perfect hash, counting a hash value among the hashed
coordinates is counting the coordinate itself. -/
theorem count_hash_eq_count_coord (bsp : List Nat) (cs : List Coord)
    (c : Coord) (hb : ∀ a ∈ cs, inBoundsB a bsp = true)
    (hc : inBoundsB c bsp = true) :
    (hashesOf (contiguous_strides bsp) cs).count
      (hashCoord (contiguous_strides bsp) c) = cs.count c := by
  rw [hashesOf, List.count_eq_countP, List.countP_map, List.count_eq_countP]
  apply List.countP_congr
  intro a ha
  simp only [Function.comp_apply, beq_iff_eq]
  constructor
  · intro h
    exact hashCoord_inj (hb a ha) hc h
  · intro h
    rw [h]

/-- The per-source join records are correct: the recorded count is the
multiplicity of the source coordinate among the probe coordinates, and
every slot of the recorded match range maps (through the sort
permutation) to a probe nonzero with exactly the source coordinate. -/
theorem join_spec (pc src : Tensor D V) (bsp : List Nat)
    (hpc : pc.Valid) (hpcb : ∀ c ∈ pc.indices, inBoundsB c bsp = true)
    (hsrcb : ∀ c ∈ src.indices, inBoundsB c bsp = true)
    (k : Nat) (hk : k < src.indices.length) :
    ((joinRecords
        (sortStage pc (hashesOf (contiguous_strides bsp) pc.indices)).1
        (contiguous_strides bsp) src.indices).getD k (0, 0)).1 =
      pc.indices.count (src.indices.getD k []) ∧
    (∀ i, i < ((joinRecords
        (sortStage pc (hashesOf (contiguous_strides bsp) pc.indices)).1
        (contiguous_strides bsp) src.indices).getD k (0, 0)).1 →
      (sortStage pc (hashesOf (contiguous_strides bsp) pc.indices)).2.getD
          (((joinRecords
              (sortStage pc (hashesOf (contiguous_strides bsp) pc.indices)).1
              (contiguous_strides bsp) src.indices).getD k (0, 0)).2 + i) 0 <
        pc.nnz ∧
      pc.indices.getD
          ((sortStage pc (hashesOf (contiguous_strides bsp) pc.indices)).2.getD
            (((joinRecords
                (sortStage pc
                  (hashesOf (contiguous_strides bsp) pc.indices)).1
                (contiguous_strides bsp) src.indices).getD k (0, 0)).2 + i) 0)
          [] =
        src.indices.getD k []) := by
  obtain ⟨hsorted, hperm, hargLen, hidx⟩ := sortStage_spec pc bsp hpc hpcb
  have hck : src.indices.getD k [] ∈ src.indices := getD_mem _ k [] hk
  have hrec := joinRecords_getD
    (sortStage pc (hashesOf (contiguous_strides bsp) pc.indices)).1
    (contiguous_strides bsp) src.indices k hk
  have hcount := find_bound_count
    (sortStage pc (hashesOf (contiguous_strides bsp) pc.indices)).1
    (hashCoord (contiguous_strides bsp) (src.indices.getD k [])) hsorted
  have hcnt2 := hperm.count_eq
    (hashCoord (contiguous_strides bsp) (src.indices.getD k []))
  have hcnt3 := count_hash_eq_count_coord bsp pc.indices
    (src.indices.getD k []) hpcb (hsrcb _ hck)
  have hslen :
      (sortStage pc (hashesOf (contiguous_strides bsp) pc.indices)).1.length =
        pc.nnz := by
    rw [hperm.length_eq, hashesOf_length]
    rfl
  constructor
  · rw [hrec]
    exact hcount.2.trans (hcnt2.trans hcnt3)
  · intro i hi
    rw [hrec] at hi ⊢
    have hspan := find_bound_span
      (sortStage pc (hashesOf (contiguous_strides bsp) pc.indices)).1
      (hashCoord (contiguous_strides bsp) (src.indices.getD k [])) hsorted
      (find_bound
        (sortStage pc (hashesOf (contiguous_strides bsp) pc.indices)).1
        (hashCoord (contiguous_strides bsp) (src.indices.getD k [])) true + i)
      (by omega) (by omega)
    have hlbi :
        find_bound
          (sortStage pc (hashesOf (contiguous_strides bsp) pc.indices)).1
          (hashCoord (contiguous_strides bsp) (src.indices.getD k [])) true +
          i < pc.nnz := by
      rw [← hslen]
      exact hspan.1
    obtain ⟨hjlt, hjeq⟩ := hidx _ hlbi
    refine ⟨hjlt, ?_⟩
    have hh : hashCoord (contiguous_strides bsp)
        (pc.indices.getD
          ((sortStage pc (hashesOf (contiguous_strides bsp) pc.indices)).2.getD
            (find_bound
              (sortStage pc (hashesOf (contiguous_strides bsp) pc.indices)).1
              (hashCoord (contiguous_strides bsp) (src.indices.getD k []))
              true + i) 0) []) =
        hashCoord (contiguous_strides bsp) (src.indices.getD k []) := by
      rw [← hashesOf_getD (contiguous_strides bsp) pc.indices _ hjlt,
        ← hjeq, hspan.2]
    exact hashCoord_inj (hpcb _ (getD_mem _ _ [] hjlt)) (hsrcb _ hck) hh

/-- Counting a coordinate among the gathered output coordinates:
source nonzero `k` contributes its count whenever its coordinate is the
counted one. -/
theorem count_selSource_map (cnt : Coord → Nat) (g : Nat → Coord) (c : Coord) :
    ∀ (cs : List Coord) (k0 : Nat),
    (∀ i, i < cs.length → g (k0 + i) = cs.getD i []) →
    ((selSourceLoop k0 (cs.map cnt)).map g).count c = cs.count c * cnt c := by
  intro cs
  induction cs with
  | nil => intro k0 _; simp [selSourceLoop]
  | cons c0 tl ih =>
    intro k0 hg
    rw [List.map_cons, selSourceLoop, List.map_append, List.count_append,
      List.map_replicate]
    have hg0 : g k0 = c0 := by
      have := hg 0 (by simp)
      simpa using this
    have hih := ih (k0 + 1) (fun i hi => by
      have := hg (i + 1) (by simpa using Nat.succ_lt_succ hi)
      rw [show k0 + (i + 1) = k0 + 1 + i by omega] at this
      simpa using this)
    rw [hg0, List.count_replicate, hih, List.count_cons]
    by_cases hc0 : (c0 == c) = true
    · have : c0 = c := by simpa using hc0
      subst this
      simp only [hc0, if_true]
      ring
    · have hc0' : (c0 == c) = false := by
        cases h : (c0 == c)
        · rfl
        · exact absurd h hc0
      simp only [hc0', Bool.false_eq_true, if_false]
      ring

/-- Pointwise description of the two gathered selection arrays: output
slot `p` belongs to the block of some source nonzero `k` and, within it,
to inner match `i`; the slot holds `k` on the source side and
`argsort[first[k] + i]` on the probe side. -/
theorem sel_get : ∀ (cfs : List (Nat × Nat)) (argsort : List Nat) (k0 p : Nat),
    p < (cfs.map Prod.fst).sum →
    ∃ k i, k < cfs.length ∧ i < (cfs.getD k (0, 0)).1 ∧
      (selSourceLoop k0 (cfs.map Prod.fst)).getD p 0 = k0 + k ∧
      (selProbeLoop argsort cfs).getD p 0 =
        argsort.getD ((cfs.getD k (0, 0)).2 + i) 0 := by
  intro cfs
  induction cfs with
  | nil => intro argsort k0 p hp; simp at hp
  | cons cf rest ih =>
    obtain ⟨cc, f⟩ := cf
    intro argsort k0 p hp
    rw [List.map_cons, List.sum_cons] at hp
    by_cases hpc : p < cc
    · refine ⟨0, p, by simp, by simpa using hpc, ?_, ?_⟩
      · rw [List.map_cons, selSourceLoop,
          List.getD_append _ _ _ _ (by simpa using hpc)]
        rw [List.getD_eq_getElem _ _ (by simpa using hpc)]
        simp
      · rw [selProbeLoop,
          List.getD_append _ _ _ _ (by simpa using hpc)]
        rw [List.getD_eq_getElem _ _ (by simpa using hpc)]
        simp
    · have hp' : p - cc < (rest.map Prod.fst).sum := by omega
      obtain ⟨k, i, hk, hi, hs, hpp⟩ := ih argsort (k0 + 1) (p - cc) hp'
      refine ⟨k + 1, i, by simpa using hk, by simpa using hi, ?_, ?_⟩
      · rw [List.map_cons, selSourceLoop,
          List.getD_append_right _ _ _ _ (by simpa using not_lt.mp hpc)]
        simp only [List.length_replicate]
        rw [hs]
        omega
      · rw [selProbeLoop,
          List.getD_append_right _ _ _ _
            (by simp only [List.length_map, List.length_range]
                exact not_lt.mp hpc)]
        simp only [List.length_map, List.length_range, List.getD_cons_succ]
        exact hpp

/-- Within the output block of source nonzero `k`, every slot of the
source-side selection array holds `k`. -/
theorem selSourceLoop_getD_range :
    ∀ (counts : List Nat) (k0 k p : Nat), k < counts.length →
    (counts.take k).sum ≤ p → p < (counts.take k).sum + counts.getD k 0 →
    (selSourceLoop k0 counts).getD p 0 = k0 + k := by
  intro counts
  induction counts with
  | nil => intro k0 k p hk _ _; simp at hk
  | cons c cs ih =>
    intro k0 k p hk hlo hhi
    cases k with
    | zero =>
      simp only [List.take_zero, List.sum_nil, Nat.zero_add,
        List.getD_cons_zero] at hhi
      rw [selSourceLoop,
        List.getD_append _ _ _ _ (by simpa using hhi),
        List.getD_eq_getElem _ _ (by simpa using hhi)]
      simp
    | succ k =>
      simp only [List.take_succ_cons, List.sum_cons,
        List.getD_cons_succ] at hlo hhi
      rw [selSourceLoop,
        List.getD_append_right _ _ _ _ (by simp only [List.length_replicate]; omega)]
      simp only [List.length_replicate]
      have := ih (k0 + 1) k (p - c) (by simpa using hk) (by omega) (by omega)
      rw [this]
      omega

theorem sum_take_succ_getD : ∀ (l : List Nat) (k : Nat), k < l.length →
    (l.take (k + 1)).sum = (l.take k).sum + l.getD k 0 := by
  intro l
  induction l with
  | nil => intro k hk; simp at hk
  | cons a as ih =>
    intro k hk
    cases k with
    | zero => simp
    | succ k =>
      simp only [List.take_succ_cons, List.sum_cons, List.getD_cons_succ]
      rw [ih k (by simpa using hk)]
      omega

theorem exists_block : ∀ (counts : List Nat) (p : Nat), p < counts.sum →
    ∃ k, k < counts.length ∧ (counts.take k).sum ≤ p ∧
      p < (counts.take k).sum + counts.getD k 0 := by
  intro counts
  induction counts with
  | nil => intro p hp; simp at hp
  | cons c cs ih =>
    intro p hp
    by_cases hpc : p < c
    · exact ⟨0, by simp, by simp, by simpa using hpc⟩
    · rw [List.sum_cons] at hp
      obtain ⟨k, hk, hlo, hhi⟩ := ih (p - c) (by omega)
      refine ⟨k + 1, by simpa using hk, ?_, ?_⟩
      · simp only [List.take_succ_cons, List.sum_cons]
        omega
      · simp only [List.take_succ_cons, List.sum_cons, List.getD_cons_succ]
        omega

/-- The coalesced flag computed at header line 481 agrees with the
conjunction of the two argument flags. -/
theorem roleSelect_flag (vadd : V → V → V) (x y : Tensor D V) :
    ((roleSelect vadd x y).2.coalesced && (roleSelect vadd x y).1.coalesced) =
      (x.coalesced && y.coalesced) := by
  simp only [roleSelect]
  by_cases h1 : (x.coalesced != y.coalesced) = true
  · rw [if_pos h1]
    by_cases h2 : x.coalesced = true
    · rw [if_pos h2]
      have hy : y.coalesced = false := by
        cases hyy : y.coalesced
        · rfl
        · rw [h2, hyy] at h1; simp at h1
      simp [h2, hy]
    · rw [if_neg h2]
  · have hxy : x.coalesced = y.coalesced := by
      cases hxx : x.coalesced <;> cases hyy : y.coalesced
      · rfl
      · rw [hxx, hyy] at h1; simp at h1
      · rw [hxx, hyy] at h1; simp at h1
      · rfl
    rw [if_neg h1]
    by_cases h2 : x.nnz ≥ y.nnz
    · simp only [if_pos h2]
      by_cases h3 : x.nnz / (x.shape.take x.sparse_dim).prod > 50
      · simp only [if_pos h3]
        cases hxx : x.coalesced with
        | true =>
          rw [coalesce_of_true vadd x hxx, Bool.and_comm, hxx]
        | false =>
          have hyy : y.coalesced = false := by rw [← hxy]; exact hxx
          simp [hyy]
      · simp only [if_neg h3]
        rw [Bool.and_comm]
    · simp only [if_neg h2]
      by_cases h3 : y.nnz / (y.shape.take y.sparse_dim).prod > 50
      · simp only [if_pos h3]
        cases hyy : y.coalesced with
        | true =>
          rw [coalesce_of_true vadd y hyy, hyy]
        | false =>
          have hxx : x.coalesced = false := by rw [hxy]; exact hyy
          simp [hxx]
      · simp only [if_neg h3]

/-- Up to a swap of roles, the source and probe sides carry exactly the
coordinate sets of the two (possibly pre-coalesced) inputs. -/
theorem pipeline_sides_mem (vadd : V → V → V) (x_ y_ : Tensor D V)
    (bs : List Nat) (comm : Bool) (hx : x_.Valid) (hy : y_.Valid) :
    ((∀ c : Coord, c ∈ (pipeline vadd x_ y_ bs comm).src.indices ↔
        c ∈ y_.indices) ∧
      (∀ c : Coord, c ∈ (pipeline vadd x_ y_ bs comm).pc.indices ↔
        c ∈ x_.indices)) ∨
    ((∀ c : Coord, c ∈ (pipeline vadd x_ y_ bs comm).src.indices ↔
        c ∈ x_.indices) ∧
      (∀ c : Coord, c ∈ (pipeline vadd x_ y_ bs comm).pc.indices ↔
        c ∈ y_.indices)) := by
  have hx' : (if comm then x_ else x_.coalesce vadd).Valid := by
    by_cases h : comm = true
    · simpa [h] using hx
    · simp only [h, if_false]
      exact coalesce_valid vadd x_ hx
  have hy' : (if comm then y_ else y_.coalesce vadd).Valid := by
    by_cases h : comm = true
    · simpa [h] using hy
    · simp only [h, if_false]
      exact coalesce_valid vadd y_ hy
  have hmx : ∀ c : Coord,
      c ∈ (if comm then x_ else x_.coalesce vadd).indices ↔ c ∈ x_.indices := by
    by_cases h : comm = true
    · simp [h]
    · simp only [h, if_false]
      exact coalesce_mem vadd x_ hx
  have hmy : ∀ c : Coord,
      c ∈ (if comm then y_ else y_.coalesce vadd).indices ↔ c ∈ y_.indices := by
    by_cases h : comm = true
    · simp [h]
    · simp only [h, if_false]
      exact coalesce_mem vadd y_ hy
  rw [pipeline_src, pipeline_pc]
  rcases roleSelect_cases vadd (if comm then x_ else x_.coalesce vadd)
      (if comm then y_ else y_.coalesce vadd) with
    ⟨h2, h1 | h1⟩ | ⟨h2, h1 | h1⟩ <;> rw [h1, h2]
  · exact Or.inl ⟨hmy, hmx⟩
  · exact Or.inl ⟨hmy, fun c => (coalesce_mem vadd _ hx' c).trans (hmx c)⟩
  · exact Or.inr ⟨hmx, hmy⟩
  · exact Or.inr ⟨hmx, fun c => (coalesce_mem vadd _ hy' c).trans (hmy c)⟩

/-- Successful run of the kernel: the cast check passes and the output
tensor is assembled from the pipeline state (header lines 452-481). -/
theorem impl_eq_ok (op : V → V → V) (castTo : V → D → V)
    (result_type : D → D → D) (canCast : D → D → Bool) (vadd : V → V → V)
    (vdflt : V) (res x_ y_ : Tensor D V) (bs : List Nat) (comm : Bool)
    (hcast : canCast (result_type x_.dtype y_.dtype) res.dtype = true) :
    _sparse_binary_op_intersection_kernel_impl op castTo result_type canCast
        vadd vdflt res x_ y_ bs comm =
      Except.ok {
        is_sparse := true
        dtype := res.dtype
        sparse_dim := (pipeline vadd x_ y_ bs comm).src.sparse_dim
        dense_dim := max (pipeline vadd x_ y_ bs comm).src.dense_dim
          (pipeline vadd x_ y_ bs comm).pc.dense_dim
        shape := bs
        indices := (pipeline vadd x_ y_ bs comm).sel_src.map
          (fun k => (pipeline vadd x_ y_ bs comm).src.indices.getD k [])
        values := List.zipWith (fun a b => castTo (op a b) res.dtype)
          ((pipeline vadd x_ y_ bs comm).sel_src.map
            (fun k => (pipeline vadd x_ y_ bs comm).src.values.getD k vdflt))
          ((pipeline vadd x_ y_ bs comm).sel_pc.map
            (fun j => (pipeline vadd x_ y_ bs comm).pc.values.getD j vdflt))
        coalesced := (pipeline vadd x_ y_ bs comm).src.coalesced &&
          (pipeline vadd x_ y_ bs comm).pc.coalesced } := by
  rw [_sparse_binary_op_intersection_kernel_impl,
    if_neg (by simp [hcast])]

/-- Failing cast check: the kernel raises before any stage runs. -/
theorem impl_eq_error (op : V → V → V) (castTo : V → D → V)
    (result_type : D → D → D) (canCast : D → D → Bool) (vadd : V → V → V)
    (vdflt : V) (res x_ y_ : Tensor D V) (bs : List Nat) (comm : Bool)
    (hcast : canCast (result_type x_.dtype y_.dtype) res.dtype = false) :
    _sparse_binary_op_intersection_kernel_impl op castTo result_type canCast
        vadd vdflt res x_ y_ bs comm =
      Except.error "cannot convert result type to output dtype" := by
  rw [_sparse_binary_op_intersection_kernel_impl, if_pos hcast]

theorem pipeline_counts_length (vadd : V → V → V) (x_ y_ : Tensor D V)
    (bs : List Nat) (comm : Bool) :
    (pipeline vadd x_ y_ bs comm).counts.length =
      (pipeline vadd x_ y_ bs comm).src.nnz := by
  rw [pipeline_counts, List.length_map, joinRecords_length]
  rfl

theorem pipeline_firsts_length (vadd : V → V → V) (x_ y_ : Tensor D V)
    (bs : List Nat) (comm : Bool) :
    (pipeline vadd x_ y_ bs comm).firsts.length =
      (pipeline vadd x_ y_ bs comm).src.nnz := by
  rw [pipeline_firsts, List.length_map, joinRecords_length]
  rfl

/-- The join counts are exactly the per-source-coordinate multiplicities
among the probe coordinates. -/
theorem pipeline_counts_eq (vadd : V → V → V) (x_ y_ : Tensor D V)
    (bs : List Nat) (comm : Bool) (sd : Nat)
    (hx : GoodSide x_ sd (bs.take sd)) (hy : GoodSide y_ sd (bs.take sd)) :
    (pipeline vadd x_ y_ bs comm).counts =
      (pipeline vadd x_ y_ bs comm).src.indices.map
        (fun c => (pipeline vadd x_ y_ bs comm).pc.indices.count c) := by
  obtain ⟨hpcg, hsrcg⟩ := pipeline_sides_good vadd x_ y_ bs comm sd (bs.take sd)
    hx hy
  have hcoef : bs.take (pipeline vadd x_ y_ bs comm).pc.sparse_dim =
      bs.take sd := by
    rw [hpcg.2.1]
  obtain ⟨hsorted, hperm, _, _⟩ := sortStage_spec (pipeline vadd x_ y_ bs comm).pc
    (bs.take sd) hpcg.1 hpcg.inbounds
  rw [pipeline_counts, pipeline_sorted_hash, pipeline_hash_coeffs, hcoef,
    joinRecords, List.map_map]
  apply List.map_congr_left
  intro a ha
  simp only [Function.comp_apply]
  have h1 := find_bound_count
    (sortStage (pipeline vadd x_ y_ bs comm).pc
      (hashesOf (contiguous_strides (bs.take sd))
        (pipeline vadd x_ y_ bs comm).pc.indices)).1
    (hashCoord (contiguous_strides (bs.take sd)) a) hsorted
  have h2 := hperm.count_eq (hashCoord (contiguous_strides (bs.take sd)) a)
  have h3 := count_hash_eq_count_coord (bs.take sd)
    (pipeline vadd x_ y_ bs comm).pc.indices a hpcg.inbounds (hsrcg.inbounds a ha)
  rw [h1.2, h2, h3]

/-- Inversion of a successful kernel run: the cast check passed and every
field of the output tensor is as assembled at header lines 452-481. -/
theorem impl_ok_inv (op : V → V → V) (castTo : V → D → V)
    (result_type : D → D → D) (canCast : D → D → Bool) (vadd : V → V → V)
    (vdflt : V) (res x_ y_ : Tensor D V) (bs : List Nat) (comm : Bool)
    (t : Tensor D V)
    (hok : _sparse_binary_op_intersection_kernel_impl op castTo result_type
      canCast vadd vdflt res x_ y_ bs comm = Except.ok t) :
    canCast (result_type x_.dtype y_.dtype) res.dtype = true ∧
    t.indices = (pipeline vadd x_ y_ bs comm).sel_src.map
      (fun k => (pipeline vadd x_ y_ bs comm).src.indices.getD k []) ∧
    t.values = List.zipWith (fun a b => castTo (op a b) res.dtype)
      ((pipeline vadd x_ y_ bs comm).sel_src.map
        (fun k => (pipeline vadd x_ y_ bs comm).src.values.getD k vdflt))
      ((pipeline vadd x_ y_ bs comm).sel_pc.map
        (fun j => (pipeline vadd x_ y_ bs comm).pc.values.getD j vdflt)) ∧
    t.coalesced = ((pipeline vadd x_ y_ bs comm).src.coalesced &&
      (pipeline vadd x_ y_ bs comm).pc.coalesced) ∧
    t.shape = bs ∧
    t.sparse_dim = (pipeline vadd x_ y_ bs comm).src.sparse_dim ∧
    t.dense_dim = max (pipeline vadd x_ y_ bs comm).src.dense_dim
      (pipeline vadd x_ y_ bs comm).pc.dense_dim := by
  by_cases hcast : canCast (result_type x_.dtype y_.dtype) res.dtype = true
  · rw [impl_eq_ok op castTo result_type canCast vadd vdflt res x_ y_ bs comm
      hcast] at hok
    injection hok with ht
    refine ⟨hcast, ?_, ?_, ?_, ?_, ?_, ?_⟩ <;> rw [← ht]
  · have hcf : canCast (result_type x_.dtype y_.dtype) res.dtype = false := by
      cases h : canCast (result_type x_.dtype y_.dtype) res.dtype
      · rfl
      · exact absurd h hcast
    rw [impl_eq_error op castTo result_type canCast vadd vdflt res x_ y_ bs
      comm hcf] at hok
    exact Except.noConfusion hok

/-- When every count is at most one, the gathered coordinate list is a
sublist of the (suffix of the) source coordinate list. -/
theorem selSource_map_sublist (full : List Coord) :
    ∀ (counts : List Nat) (k0 : Nat), k0 + counts.length ≤ full.length →
    (∀ k, k < counts.length → counts.getD k 0 ≤ 1) →
    ((selSourceLoop k0 counts).map (fun j => full.getD j [])).Sublist
      (full.drop k0) := by
  intro counts
  induction counts with
  | nil => intro k0 _ _; simp [selSourceLoop]
  | cons c cs ih =>
    intro k0 hlen hle
    rw [selSourceLoop, List.map_append, List.map_replicate]
    have hk0 : k0 < full.length := by
      simp only [List.length_cons] at hlen
      omega
    have hrest := ih (k0 + 1)
      (by simp only [List.length_cons] at hlen; omega)
      (fun k hk => by
        have := hle (k + 1) (by simpa using Nat.succ_lt_succ hk)
        simpa using this)
    have hdropsub : (full.drop (k0 + 1)).Sublist (full.drop k0) := by
      rw [← List.tail_drop]
      exact List.tail_sublist _
    have hc := hle 0 (by simp)
    simp only [List.getD_cons_zero] at hc
    cases c with
    | zero =>
      rw [show List.replicate 0 (full.getD k0 []) = [] from rfl,
        List.nil_append]
      exact hrest.trans hdropsub
    | succ c' =>
      have hc0 : c' = 0 := by omega
      subst hc0
      rw [show List.replicate 1 (full.getD k0 []) = [full.getD k0 []] from rfl,
        List.singleton_append,
        List.getD_eq_getElem _ _ hk0,
        List.drop_eq_getElem_cons hk0]
      exact List.Sublist.cons₂ _ hrest

/-- C5: on every array sorted in nondecreasing order, `find_bound` with
`is_lower = true` returns the first position whose element is `≥` the
searched value, with `is_lower = false` the first position whose element
is `>` the value; hence `count = upper - lower` and
`first_match_offset = lower` delimit exactly the contiguous span of
entries equal to the value. -/
theorem claim_C5 (L : List Int) (v : Int) (hs : L.Pairwise (· ≤ ·)) :
    (find_bound L v true ≤ L.length ∧
      (∀ j, j < find_bound L v true → L.getD j 0 < v) ∧
      (∀ j, find_bound L v true ≤ j → j < L.length → v ≤ L.getD j 0)) ∧
    (find_bound L v false ≤ L.length ∧
      (∀ j, j < find_bound L v false → L.getD j 0 ≤ v) ∧
      (∀ j, find_bound L v false ≤ j → j < L.length → v < L.getD j 0)) ∧
    (find_bound L v true ≤ find_bound L v false ∧
      find_bound L v false - find_bound L v true = L.count v ∧
      (∀ j, j < L.length →
        (L.getD j 0 = v ↔
          find_bound L v true ≤ j ∧ j < find_bound L v false))) := by
  obtain ⟨hl1, hl2, hl3⟩ := find_bound_split L v true hs
  obtain ⟨hu1, hu2, hu3⟩ := find_bound_split L v false hs
  obtain ⟨hle, hcnt⟩ := find_bound_count L v hs
  refine ⟨⟨hl1, ?_, ?_⟩, ⟨hu1, ?_, ?_⟩, hle, hcnt, ?_⟩
  · intro j hj
    exact (fbAdv_true v _).mp (hl2 j hj)
  · intro j hj hjl
    have := hl3 j hj hjl
    rw [fbAdv_true] at this
    omega
  · intro j hj
    exact (fbAdv_false v _).mp (hu2 j hj)
  · intro j hj hjl
    have := hu3 j hj hjl
    rw [fbAdv_false] at this
    omega
  · intro j hjl
    constructor
    · intro hv
      constructor
      · by_contra hlt
        have := hl2 j (by omega)
        rw [fbAdv_true] at this
        omega
      · by_contra hge
        have := hu3 j (by omega) hjl
        rw [fbAdv_false] at this
        omega
    · intro h
      exact (find_bound_span L v hs j h.1 h.2).2

theorem claim_C5_witness :
    find_bound [1, 3, 3, 5] 3 false - find_bound [1, 3, 3, 5] 3 true =
      List.count 3 [1, 3, 3, 5] :=
  (claim_C5 [1, 3, 3, 5] 3 (by decide)).2.2.2.1

/-- C4: the stride hash is injective over the broadcasted coordinate
space and its order agrees with the lexicographic order on coordinates;
consequently a coalesced tensor's hash array is already nondecreasing and
the sort stage returns it unchanged with the identity permutation. -/
theorem claim_C4 :
    (∀ (s : List Nat) (c d : Coord),
      inBoundsB c s = true → inBoundsB d s = true →
      ((hashCoord (contiguous_strides s) c = hashCoord (contiguous_strides s) d
          ↔ c = d) ∧
        (coordLt c d = true ↔
          hashCoord (contiguous_strides s) c <
            hashCoord (contiguous_strides s) d))) ∧
    (∀ t : Tensor D V, t.Valid → t.coalesced = true →
      (hashesOf (contiguous_strides (t.shape.take t.sparse_dim))
        t.indices).Pairwise (· ≤ ·)) ∧
    (∀ (t : Tensor D V) (h : List Int), t.coalesced = true →
      sortStage t h = (h, List.range t.nnz)) := by
  refine ⟨?_, ?_, ?_⟩
  · intro s c d hc hd
    constructor
    · constructor
      · intro h
        exact hashCoord_inj hc hd h
      · intro h
        rw [h]
    · exact coordLt_iff_hash_lt hc hd
  · intro t hv hc
    rw [hashesOf, List.pairwise_map, List.pairwise_iff_getElem]
    intro i j hi hj hij
    have hp := List.pairwise_iff_getElem.mp (Valid.sorted hv hc) i j hi hj hij
    have hbi := Valid.bounds hv _ (List.getElem_mem hi)
    have hbj := Valid.bounds hv _ (List.getElem_mem hj)
    exact le_of_lt (hashCoord_lt_of_coordLt hbi hbj hp)
  · intro t h hc
    rw [sortStage, if_pos hc]

theorem claim_C4_witness :
    hashCoord (contiguous_strides [2, 3]) [0, 1] <
      hashCoord (contiguous_strides [2, 3]) [1, 2] :=
  ((claim_C4 (D := Unit) (V := Unit)).1 [2, 3] [0, 1] [1, 2]
    (by decide) (by decide)).2.mp (by decide)

/-- C8: the gather ranges `[shifted_offset[k] - count[k], shifted_offset[k])`
derived from the inclusive prefix sum are pairwise disjoint, they cover
`[0, total)` exactly (every slot lies in exactly one range), and within
the range of source nonzero `k` the gather writes exactly `k`. -/
theorem claim_C8 (counts : List Nat) :
    (∀ k l : Nat, k < l → l < counts.length →
      (cumsum counts).getD k 0 ≤
        (cumsum counts).getD l 0 - counts.getD l 0) ∧
    (∀ p, p < counts.sum →
      ∃! k, k < counts.length ∧
        (cumsum counts).getD k 0 - counts.getD k 0 ≤ p ∧
        p < (cumsum counts).getD k 0) ∧
    (∀ k p, k < counts.length →
      (cumsum counts).getD k 0 - counts.getD k 0 ≤ p →
      p < (cumsum counts).getD k 0 →
      (selSource counts).getD p 0 = k) ∧
    (selSource counts).length = counts.sum := by
  have hsh : ∀ k, k < counts.length →
      (cumsum counts).getD k 0 = (counts.take k).sum + counts.getD k 0 := by
    intro k hk
    rw [cumsum_getD counts k hk, sum_take_succ_getD counts k hk]
  refine ⟨?_, ?_, ?_, selSource_length counts⟩
  · intro k l hkl hl
    rw [hsh k (by omega), hsh l hl]
    have h1 : (counts.take (k + 1)).sum ≤ (counts.take l).sum :=
      sum_take_mono counts (k + 1) l (by omega)
    rw [sum_take_succ_getD counts k (by omega)] at h1
    omega
  · intro p hp
    obtain ⟨k, hk, hlo, hhi⟩ := exists_block counts p hp
    refine ⟨k, ⟨hk, ?_, ?_⟩, ?_⟩
    · rw [hsh k hk]; omega
    · rw [hsh k hk]; omega
    · intro k' ⟨hk', hlo', hhi'⟩
      rw [hsh k' hk'] at hlo' hhi'
      by_contra hne
      rcases Nat.lt_or_ge k' k with hlt | hge
      · have h1 : (counts.take (k' + 1)).sum ≤ (counts.take k).sum :=
          sum_take_mono counts (k' + 1) k (by omega)
        rw [sum_take_succ_getD counts k' hk'] at h1
        omega
      · have hgt : k < k' := by omega
        have h1 : (counts.take (k + 1)).sum ≤ (counts.take k').sum :=
          sum_take_mono counts (k + 1) k' (by omega)
        rw [sum_take_succ_getD counts k hk] at h1
        omega
  · intro k p hk hlo hhi
    rw [hsh k hk] at hlo hhi
    have := selSourceLoop_getD_range counts 0 k p hk (by omega) (by omega)
    rw [selSource, this]
    omega

theorem claim_C8_witness : (selSource [2, 0, 3]).getD 3 0 = 2 :=
  (claim_C8 [2, 0, 3]).2.2.1 2 3 (by decide) (by decide) (by decide)

/-- The output's coalesced flag (header line 481) equals the conjunction
of the flags of the two (possibly pre-coalesced) inputs. -/
theorem pipeline_src_pc_flag (vadd : V → V → V) (x_ y_ : Tensor D V)
    (bs : List Nat) (comm : Bool) :
    ((pipeline vadd x_ y_ bs comm).src.coalesced &&
      (pipeline vadd x_ y_ bs comm).pc.coalesced) =
      ((if comm then x_ else x_.coalesce vadd).coalesced &&
        (if comm then y_ else y_.coalesce vadd).coalesced) := by
  rw [pipeline_src, pipeline_pc, roleSelect_flag]

/-- The two width choices of the dispatch are made independently. -/
theorem kernelDispatch_eq (x y : Tensor D V) (bs : List Nat) :
    kernelDispatch x y bs =
      ((if maxHashVal x bs ≤ int32_max then HashWidth.w32 else HashWidth.w64),
       (if (x.nnz : Int) * (y.nnz : Int) ≤ int32_max then OffsetWidth.w32
        else OffsetWidth.w64)) := by
  rw [kernelDispatch]
  by_cases hh : maxHashVal x bs ≤ int32_max <;>
    by_cases ho : (x.nnz : Int) * (y.nnz : Int) ≤ int32_max <;>
      simp [hh, ho]

theorem bigNnzT_nnz : bigNnzT.nnz = 65536 := by
  show (List.replicate 65536 ([0] : Coord)).length = 65536
  rw [List.length_replicate]

theorem bigBothT_nnz : bigBothT.nnz = 65536 := by
  show (List.replicate 65536 ([0] : Coord)).length = 65536
  rw [List.length_replicate]

/-- C9: 32-bit hash values are selected iff the product of the first
`sparse_dim` entries of the broadcasted shape fits a signed 32-bit
integer, 32-bit offsets iff `x.nnz * y.nnz` fits; the two choices are
independent and all four combinations are reachable. -/
theorem claim_C9 :
    (∀ (x y : Tensor D V) (bs : List Nat),
      ((kernelDispatch x y bs).1 = HashWidth.w32 ↔
        maxHashVal x bs ≤ int32_max) ∧
      ((kernelDispatch x y bs).2 = OffsetWidth.w32 ↔
        (x.nnz : Int) * (y.nnz : Int) ≤ int32_max)) ∧
    kernelDispatch tinyT tinyT [2] = (HashWidth.w32, OffsetWidth.w32) ∧
    kernelDispatch bigNnzT bigNnzT [2] = (HashWidth.w32, OffsetWidth.w64) ∧
    kernelDispatch bigShapeT bigShapeT [4294967296] =
      (HashWidth.w64, OffsetWidth.w32) ∧
    kernelDispatch bigBothT bigBothT [4294967296] =
      (HashWidth.w64, OffsetWidth.w64) := by
  refine ⟨?_, ?_, ?_, ?_, ?_⟩
  · intro x y bs
    rw [kernelDispatch_eq]
    constructor
    · constructor
      · intro h
        by_contra hh
        rw [if_neg hh] at h
        exact HashWidth.noConfusion h
      · intro hh
        rw [if_pos hh]
    · constructor
      · intro h
        by_contra ho
        rw [if_neg ho] at h
        exact OffsetWidth.noConfusion h
      · intro ho
        rw [if_pos ho]
  · rw [kernelDispatch_eq, if_pos (by decide), if_pos (by decide)]
  · rw [kernelDispatch_eq, if_pos (by decide),
      if_neg (by rw [bigNnzT_nnz]; decide)]
  · rw [kernelDispatch_eq, if_neg (by decide), if_pos (by decide)]
  · rw [kernelDispatch_eq, if_neg (by decide),
      if_neg (by rw [bigBothT_nnz]; decide)]

theorem claim_C9_witness :
    (kernelDispatch tinyT tinyT [2]).1 = HashWidth.w32 :=
  ((claim_C9 (D := Unit) (V := Unit)).1 tinyT tinyT [2]).1.mpr (by decide)

/-- C7: the entry point raises a descriptive precondition failure when
the inputs are not both sparse with equal dimensionality, equal
`sparse_dim` and equal sparse-shape prefixes, and raises a cast failure
when the promoted result dtype cannot be cast to the output dtype; in
both cases an `Except.error` is returned before any output tensor is
constructed, so the caller's `res` is never mutated. -/
theorem claim_C7 (op : V → V → V) (castTo : V → D → V)
    (result_type : D → D → D) (canCast : D → D → Bool) (vadd : V → V → V)
    (vdflt : V) (res x y : Tensor D V) (comm : Bool) :
    (¬ entryPrecond x y →
      _sparse_binary_op_intersection_kernel_out op castTo result_type canCast
          vadd vdflt res x y comm =
        Except.error "expects sparse inputs with equal dimensionality, number of sparse dimensions, and shape of sparse dimensions") ∧
    (entryPrecond x y → ∀ bs, infer_size x.shape y.shape = some bs →
      canCast (result_type x.dtype y.dtype) res.dtype = false →
      _sparse_binary_op_intersection_kernel_out op castTo result_type canCast
          vadd vdflt res x y comm =
        Except.error "cannot convert result type to output dtype") := by
  constructor
  · intro h
    rw [_sparse_binary_op_intersection_kernel_out, if_pos h]
  · intro hpre bs hinf hcast
    rw [_sparse_binary_op_intersection_kernel_out,
      if_neg (not_not_intro hpre)]
    split
    next heq =>
      rw [heq] at hinf
      exact Option.noConfusion hinf
    next bs' heq =>
      rw [heq] at hinf
      injection hinf with hbs
      subst hbs
      split <;>
        exact impl_eq_error op castTo result_type canCast vadd vdflt
          res x y bs' comm hcast

theorem claim_C7_witness :
    _sparse_binary_op_intersection_kernel_out
        (fun _ _ : Unit => ()) (fun _ _ => ()) (fun _ _ : Unit => ())
        (fun _ _ => true) (fun _ _ => ()) () tinyT denseT tinyT true =
      Except.error "expects sparse inputs with equal dimensionality, number of sparse dimensions, and shape of sparse dimensions" :=
  (claim_C7 (fun _ _ : Unit => ()) (fun _ _ => ()) (fun _ _ : Unit => ())
    (fun _ _ => true) (fun _ _ => ()) () tinyT denseT tinyT true).1 (by decide)

/-- C10: for a non-commutative op the kernel first replaces both inputs
by their coalesced forms (the run with `is_commutative = false` equals
the commutative run on the coalesced inputs), and consequently the
output's coalesced flag is always set. -/
theorem claim_C10 (op : V → V → V) (castTo : V → D → V)
    (result_type : D → D → D) (canCast : D → D → Bool) (vadd : V → V → V)
    (vdflt : V) (res x_ y_ : Tensor D V) (bs : List Nat) :
    (_sparse_binary_op_intersection_kernel_impl op castTo result_type canCast
        vadd vdflt res x_ y_ bs false =
      _sparse_binary_op_intersection_kernel_impl op castTo result_type canCast
        vadd vdflt res (x_.coalesce vadd) (y_.coalesce vadd) bs true) ∧
    (canCast (result_type x_.dtype y_.dtype) res.dtype = true →
      ∃ t, _sparse_binary_op_intersection_kernel_impl op castTo result_type
          canCast vadd vdflt res x_ y_ bs false = Except.ok t ∧
        t.coalesced = true) := by
  have hdx := (coalesce_fields vadd x_).2.1
  have hdy := (coalesce_fields vadd y_).2.1
  constructor
  · rw [_sparse_binary_op_intersection_kernel_impl,
      _sparse_binary_op_intersection_kernel_impl, hdx, hdy]
    rfl
  · intro hcast
    refine ⟨_, impl_eq_ok op castTo result_type canCast vadd vdflt res x_ y_
      bs false hcast, ?_⟩
    show ((pipeline vadd x_ y_ bs false).src.coalesced &&
      (pipeline vadd x_ y_ bs false).pc.coalesced) = true
    have h2 := pipeline_src_pc_flag vadd x_ y_ bs false
    rw [if_neg Bool.false_ne_true, if_neg Bool.false_ne_true] at h2
    rw [h2, coalesce_coalesced, coalesce_coalesced]
    rfl

theorem claim_C10_witness :
    ∃ t : Tensor Unit Unit,
      _sparse_binary_op_intersection_kernel_impl
          (fun _ _ : Unit => ()) (fun _ _ => ()) (fun _ _ : Unit => ())
          (fun _ _ => true) (fun _ _ => ()) () tinyT bigNnzT bigNnzT [2]
          false = Except.ok t ∧ t.coalesced = true :=
  (claim_C10 (fun _ _ : Unit => ()) (fun _ _ => ()) (fun _ _ : Unit => ())
    (fun _ _ => true) (fun _ _ => ()) () tinyT bigNnzT bigNnzT [2]).2 rfl

/-- A strictly sorted coordinate list has no duplicates: each coordinate
occurs at most once. -/
theorem count_le_one_of_pairwiseLt :
    ∀ l : List Coord, l.Pairwise (fun a b => coordLt a b = true) →
    ∀ c : Coord, l.count c ≤ 1 := by
  intro l
  induction l with
  | nil => intro _ c; simp
  | cons a l ih =>
    intro hp c
    rw [List.pairwise_cons] at hp
    rw [List.count_cons]
    by_cases hac : (a == c) = true
    · have hae : a = c := by simpa using hac
      subst hae
      have h0 : l.count a = 0 := by
        rw [List.count_eq_zero]
        intro hmem
        have := hp.1 a hmem
        rw [coordLt_irrefl] at this
        exact Bool.noConfusion this
      rw [h0, hac]
      simp
    · have hac' : (a == c) = false := by
        cases h : a == c
        · rfl
        · exact absurd h hac
      rw [hac']
      have := ih hp.2 c
      simp only [Bool.false_eq_true, if_false]
      omega

/-- C1 (amended): a coordinate appears in the result iff it appears in
both inputs; the number of result rows for a coordinate is the product of
its multiplicities in the source and probe operands actually used by the
join (i.e. after the role selector's optional eager coalescing — counting
in the raw inputs is refuted by `claim_C1_counterexample`). -/
theorem claim_C1 (op : V → V → V) (castTo : V → D → V)
    (result_type : D → D → D) (canCast : D → D → Bool) (vadd : V → V → V)
    (vdflt : V) (res x_ y_ : Tensor D V) (bs : List Nat) (comm : Bool)
    (sd : Nat) (hx : GoodSide x_ sd (bs.take sd))
    (hy : GoodSide y_ sd (bs.take sd)) (t : Tensor D V)
    (hok : _sparse_binary_op_intersection_kernel_impl op castTo result_type
      canCast vadd vdflt res x_ y_ bs comm = Except.ok t) :
    (∀ c : Coord, c ∈ t.indices ↔ (c ∈ x_.indices ∧ c ∈ y_.indices)) ∧
    (∀ c : Coord, t.indices.count c =
      (pipeline vadd x_ y_ bs comm).src.indices.count c *
        (pipeline vadd x_ y_ bs comm).pc.indices.count c) := by
  obtain ⟨hcast, hind, hval, hco, hsh, hsd, hdd⟩ := impl_ok_inv op castTo
    result_type canCast vadd vdflt res x_ y_ bs comm t hok
  have hcnts := pipeline_counts_eq vadd x_ y_ bs comm sd hx hy
  have hcount : ∀ c : Coord, t.indices.count c =
      (pipeline vadd x_ y_ bs comm).src.indices.count c *
        (pipeline vadd x_ y_ bs comm).pc.indices.count c := by
    intro c
    rw [hind, pipeline_sel_src, hcnts, selSource]
    exact count_selSource_map
      (fun c' => (pipeline vadd x_ y_ bs comm).pc.indices.count c')
      (fun k => (pipeline vadd x_ y_ bs comm).src.indices.getD k []) c
      (pipeline vadd x_ y_ bs comm).src.indices 0
      (fun i hi => by rw [Nat.zero_add])
  refine ⟨?_, hcount⟩
  intro c
  have hmem : c ∈ t.indices ↔
      (c ∈ (pipeline vadd x_ y_ bs comm).src.indices ∧
        c ∈ (pipeline vadd x_ y_ bs comm).pc.indices) := by
    rw [← List.count_pos_iff, hcount c, ← List.count_pos_iff (a := c),
      ← List.count_pos_iff (a := c)]
    constructor
    · intro h
      have hne := Nat.pos_iff_ne_zero.mp h
      rw [Ne, Nat.mul_eq_zero] at hne
      push_neg at hne
      exact ⟨Nat.pos_of_ne_zero hne.1, Nat.pos_of_ne_zero hne.2⟩
    · intro h
      exact Nat.mul_pos h.1 h.2
  rcases pipeline_sides_mem vadd x_ y_ bs comm hx.1 hy.1 with ⟨hs, hp⟩ | ⟨hs, hp⟩
  · rw [hmem, hs c, hp c]
    exact ⟨fun h => ⟨h.2, h.1⟩, fun h => ⟨h.2, h.1⟩⟩
  · rw [hmem, hs c, hp c]

/-- C3: for the (default) commutative call, the output's coalesced flag
equals `x.coalesced && y.coalesced`, and whenever the flag is set the
output's coordinates are lexicographically sorted and pairwise distinct. -/
theorem claim_C3 (op : V → V → V) (castTo : V → D → V)
    (result_type : D → D → D) (canCast : D → D → Bool) (vadd : V → V → V)
    (vdflt : V) (res x_ y_ : Tensor D V) (bs : List Nat) (sd : Nat)
    (hx : GoodSide x_ sd (bs.take sd)) (hy : GoodSide y_ sd (bs.take sd))
    (t : Tensor D V)
    (hok : _sparse_binary_op_intersection_kernel_impl op castTo result_type
      canCast vadd vdflt res x_ y_ bs true = Except.ok t) :
    t.coalesced = (x_.coalesced && y_.coalesced) ∧
    (t.coalesced = true →
      t.indices.Pairwise (fun a b => coordLt a b = true)) := by
  obtain ⟨hcast, hind, hval, hco, hsh, hsd, hdd⟩ := impl_ok_inv op castTo
    result_type canCast vadd vdflt res x_ y_ bs true t hok
  have hflag0 := pipeline_src_pc_flag vadd x_ y_ bs true
  rw [if_pos rfl, if_pos rfl] at hflag0
  constructor
  · rw [hco]
    exact hflag0
  · intro hcoal
    have hflag : ((pipeline vadd x_ y_ bs true).src.coalesced &&
        (pipeline vadd x_ y_ bs true).pc.coalesced) = true := by
      rw [← hco]
      exact hcoal
    rw [Bool.and_eq_true] at hflag
    obtain ⟨hpcg, hsrcg⟩ := pipeline_sides_good vadd x_ y_ bs true sd
      (bs.take sd) hx hy
    have hcle : ∀ k, k < (pipeline vadd x_ y_ bs true).counts.length →
        (pipeline vadd x_ y_ bs true).counts.getD k 0 ≤ 1 := by
      intro k hk
      rw [pipeline_counts_eq vadd x_ y_ bs true sd hx hy] at hk ⊢
      rw [List.getD_eq_getElem _ _ hk, List.getElem_map]
      exact count_le_one_of_pairwiseLt _ (Valid.sorted hpcg.1 hflag.2) _
    rw [hind, pipeline_sel_src, selSource]
    have hsub := selSource_map_sublist (pipeline vadd x_ y_ bs true).src.indices
      (pipeline vadd x_ y_ bs true).counts 0
      (by rw [Nat.zero_add, pipeline_counts_length]; exact Nat.le_refl _)
      hcle
    rw [List.drop_zero] at hsub
    exact List.Pairwise.sublist hsub (Valid.sorted hsrcg.1 hflag.1)

/-- C6: the result's nonzero count is the last element of the inclusive
prefix sum of the match counts (0 when the source side is empty), and an
empty intersection still carries the broadcasted shape, the source's
`sparse_dim`, and `dense_dim = (rank of the result values) - 1`. -/
theorem claim_C6 (op : V → V → V) (castTo : V → D → V)
    (result_type : D → D → D) (canCast : D → D → Bool) (vadd : V → V → V)
    (vdflt : V) (res x_ y_ : Tensor D V) (bs : List Nat) (comm : Bool)
    (sd : Nat) (hx : GoodSide x_ sd (bs.take sd))
    (hy : GoodSide y_ sd (bs.take sd)) (t : Tensor D V)
    (hok : _sparse_binary_op_intersection_kernel_impl op castTo result_type
      canCast vadd vdflt res x_ y_ bs comm = Except.ok t) :
    t.nnz = (cumsum (pipeline vadd x_ y_ bs comm).counts).getLastD 0 ∧
    ((pipeline vadd x_ y_ bs comm).src.nnz = 0 → t.nnz = 0) ∧
    ((∀ c : Coord, ¬(c ∈ x_.indices ∧ c ∈ y_.indices)) → t.nnz = 0) ∧
    t.shape = bs ∧
    t.sparse_dim = (pipeline vadd x_ y_ bs comm).src.sparse_dim ∧
    t.dense_dim = max (pipeline vadd x_ y_ bs comm).src.dense_dim
      (pipeline vadd x_ y_ bs comm).pc.dense_dim := by
  obtain ⟨hcast, hind, hval, hco, hsh, hsd, hdd⟩ := impl_ok_inv op castTo
    result_type canCast vadd vdflt res x_ y_ bs comm t hok
  have hnnz : t.nnz = (pipeline vadd x_ y_ bs comm).counts.sum := by
    rw [Tensor.nnz, hind, List.length_map, pipeline_sel_src, selSource_length]
  refine ⟨?_, ?_, ?_, hsh, hsd, hdd⟩
  · rw [hnnz, cumsum_getLastD]
  · intro h0
    rw [hnnz]
    have hlen := pipeline_counts_length vadd x_ y_ bs comm
    rw [h0] at hlen
    rw [List.length_eq_zero.mp hlen]
    rfl
  · intro hdisj
    rw [hnnz]
    apply List.sum_eq_zero
    intro n hn
    rw [pipeline_counts_eq vadd x_ y_ bs comm sd hx hy] at hn
    obtain ⟨c, hc, rfl⟩ := List.mem_map.mp hn
    rw [List.count_eq_zero]
    intro hcpc
    rcases pipeline_sides_mem vadd x_ y_ bs comm hx.1 hy.1 with
      ⟨hs, hp⟩ | ⟨hs, hp⟩
    · exact hdisj c ⟨(hp c).mp hcpc, (hs c).mp hc⟩
    · exact hdisj c ⟨(hs c).mp hc, (hp c).mp hcpc⟩

theorem getD_map_fst {α β : Type} (l : List (α × β)) (k : Nat) (d : α)
    (dp : α × β) (hk : k < l.length) :
    (l.map Prod.fst).getD k d = (l.getD k dp).1 := by
  rw [List.getD_eq_getElem _ _ (by rw [List.length_map]; exact hk),
    List.getElem_map, List.getD_eq_getElem _ _ hk]

theorem getD_map_snd {α β : Type} (l : List (α × β)) (k : Nat) (d : β)
    (dp : α × β) (hk : k < l.length) :
    (l.map Prod.snd).getD k d = (l.getD k dp).2 := by
  rw [List.getD_eq_getElem _ _ (by rw [List.length_map]; exact hk),
    List.getElem_map, List.getD_eq_getElem _ _ hk]

/-- C2: every output row `p` corresponds to the matched pair
`(i, j) = (selected_source[p], selected_probe[p])`: the two nonzeros have
equal coordinates, the output value row is `op(source.values[i],
probe.values[j])` cast to the declared output dtype, and the output index
column is the source's index column `i`. -/
theorem claim_C2 (op : V → V → V) (castTo : V → D → V)
    (result_type : D → D → D) (canCast : D → D → Bool) (vadd : V → V → V)
    (vdflt : V) (res x_ y_ : Tensor D V) (bs : List Nat) (comm : Bool)
    (sd : Nat) (hx : GoodSide x_ sd (bs.take sd))
    (hy : GoodSide y_ sd (bs.take sd)) (t : Tensor D V)
    (hok : _sparse_binary_op_intersection_kernel_impl op castTo result_type
      canCast vadd vdflt res x_ y_ bs comm = Except.ok t) :
    ∀ p, p < t.nnz →
      (pipeline vadd x_ y_ bs comm).sel_src.getD p 0 <
        (pipeline vadd x_ y_ bs comm).src.nnz ∧
      (pipeline vadd x_ y_ bs comm).sel_pc.getD p 0 <
        (pipeline vadd x_ y_ bs comm).pc.nnz ∧
      (pipeline vadd x_ y_ bs comm).src.indices.getD
          ((pipeline vadd x_ y_ bs comm).sel_src.getD p 0) [] =
        (pipeline vadd x_ y_ bs comm).pc.indices.getD
          ((pipeline vadd x_ y_ bs comm).sel_pc.getD p 0) [] ∧
      t.values.getD p vdflt =
        castTo (op ((pipeline vadd x_ y_ bs comm).src.values.getD
            ((pipeline vadd x_ y_ bs comm).sel_src.getD p 0) vdflt)
          ((pipeline vadd x_ y_ bs comm).pc.values.getD
            ((pipeline vadd x_ y_ bs comm).sel_pc.getD p 0) vdflt)) res.dtype ∧
      t.indices.getD p [] =
        (pipeline vadd x_ y_ bs comm).src.indices.getD
          ((pipeline vadd x_ y_ bs comm).sel_src.getD p 0) [] := by
  obtain ⟨hcast, hind, hval, hco, hsh, hsd, hdd⟩ := impl_ok_inv op castTo
    result_type canCast vadd vdflt res x_ y_ bs comm t hok
  obtain ⟨hpcg, hsrcg⟩ := pipeline_sides_good vadd x_ y_ bs comm sd (bs.take sd)
    hx hy
  have hcoef : bs.take (pipeline vadd x_ y_ bs comm).pc.sparse_dim =
      bs.take sd := by
    rw [hpcg.2.1]
  intro p hp
  have hlen_cf : (pipeline vadd x_ y_ bs comm).counts.length =
      (pipeline vadd x_ y_ bs comm).firsts.length := by
    rw [pipeline_counts, pipeline_firsts, List.length_map, List.length_map]
  have hmapfst : (((pipeline vadd x_ y_ bs comm).counts).zip
        ((pipeline vadd x_ y_ bs comm).firsts)).map Prod.fst =
      (pipeline vadd x_ y_ bs comm).counts :=
    List.map_fst_zip _ _ (le_of_eq hlen_cf)
  have hnnz : t.nnz = (pipeline vadd x_ y_ bs comm).counts.sum := by
    rw [Tensor.nnz, hind, List.length_map, pipeline_sel_src, selSource_length]
  have hp' : p < ((((pipeline vadd x_ y_ bs comm).counts).zip
      ((pipeline vadd x_ y_ bs comm).firsts)).map Prod.fst).sum := by
    rw [hmapfst, ← hnnz]
    exact hp
  obtain ⟨k, i, hk, hi, hss, hsp⟩ := sel_get
    (((pipeline vadd x_ y_ bs comm).counts).zip
      ((pipeline vadd x_ y_ bs comm).firsts))
    (pipeline vadd x_ y_ bs comm).argsort_hash 0 p hp'
  have hkc : k < (pipeline vadd x_ y_ bs comm).counts.length := by
    rw [List.length_zip] at hk
    omega
  have hkf : k < (pipeline vadd x_ y_ bs comm).firsts.length := by
    rw [List.length_zip] at hk
    omega
  have hksrc : k < (pipeline vadd x_ y_ bs comm).src.indices.length := by
    have := pipeline_counts_length vadd x_ y_ bs comm
    rw [this] at hkc
    exact hkc
  have hss' : (pipeline vadd x_ y_ bs comm).sel_src.getD p 0 = k := by
    rw [pipeline_sel_src, selSource, ← hmapfst]
    exact hss.trans (Nat.zero_add k)
  have hcfk : (((pipeline vadd x_ y_ bs comm).counts).zip
        ((pipeline vadd x_ y_ bs comm).firsts)).getD k (0, 0) =
      ((pipeline vadd x_ y_ bs comm).counts.getD k 0,
       (pipeline vadd x_ y_ bs comm).firsts.getD k 0) := by
    rw [List.getD_eq_getElem _ _ hk, List.getElem_zip,
      List.getD_eq_getElem _ _ hkc, List.getD_eq_getElem _ _ hkf]
  have hcget : (pipeline vadd x_ y_ bs comm).counts.getD k 0 =
      ((joinRecords
          (sortStage (pipeline vadd x_ y_ bs comm).pc
            (hashesOf (contiguous_strides (bs.take sd))
              (pipeline vadd x_ y_ bs comm).pc.indices)).1
          (contiguous_strides (bs.take sd))
          (pipeline vadd x_ y_ bs comm).src.indices).getD k (0, 0)).1 := by
    rw [pipeline_counts, pipeline_sorted_hash, pipeline_hash_coeffs, hcoef]
    exact getD_map_fst _ k 0 (0, 0) (by rw [joinRecords_length]; exact hksrc)
  have hfget : (pipeline vadd x_ y_ bs comm).firsts.getD k 0 =
      ((joinRecords
          (sortStage (pipeline vadd x_ y_ bs comm).pc
            (hashesOf (contiguous_strides (bs.take sd))
              (pipeline vadd x_ y_ bs comm).pc.indices)).1
          (contiguous_strides (bs.take sd))
          (pipeline vadd x_ y_ bs comm).src.indices).getD k (0, 0)).2 := by
    rw [pipeline_firsts, pipeline_sorted_hash, pipeline_hash_coeffs, hcoef]
    exact getD_map_snd _ k 0 (0, 0) (by rw [joinRecords_length]; exact hksrc)
  have hargs : (pipeline vadd x_ y_ bs comm).argsort_hash =
      (sortStage (pipeline vadd x_ y_ bs comm).pc
        (hashesOf (contiguous_strides (bs.take sd))
          (pipeline vadd x_ y_ bs comm).pc.indices)).2 := by
    rw [pipeline_argsort, pipeline_hash_coeffs, hcoef]
  have hjs := join_spec (pipeline vadd x_ y_ bs comm).pc
    (pipeline vadd x_ y_ bs comm).src (bs.take sd) hpcg.1 hpcg.inbounds
    hsrcg.inbounds k hksrc
  rw [hcfk] at hi
  have hpair1 : ((pipeline vadd x_ y_ bs comm).counts.getD k 0,
      (pipeline vadd x_ y_ bs comm).firsts.getD k 0).1 =
      (pipeline vadd x_ y_ bs comm).counts.getD k 0 := rfl
  rw [hpair1, hcget] at hi
  obtain ⟨hjlt, hjeq⟩ := hjs.2 i hi
  have hsp' : (pipeline vadd x_ y_ bs comm).sel_pc.getD p 0 =
      (sortStage (pipeline vadd x_ y_ bs comm).pc
        (hashesOf (contiguous_strides (bs.take sd))
          (pipeline vadd x_ y_ bs comm).pc.indices)).2.getD
        (((joinRecords
            (sortStage (pipeline vadd x_ y_ bs comm).pc
              (hashesOf (contiguous_strides (bs.take sd))
                (pipeline vadd x_ y_ bs comm).pc.indices)).1
            (contiguous_strides (bs.take sd))
            (pipeline vadd x_ y_ bs comm).src.indices).getD k (0, 0)).2 + i)
        0 := by
    rw [pipeline_sel_pc, selProbe]
    rw [hsp, hcfk]
    have hpair2 : ((pipeline vadd x_ y_ bs comm).counts.getD k 0,
        (pipeline vadd x_ y_ bs comm).firsts.getD k 0).2 =
        (pipeline vadd x_ y_ bs comm).firsts.getD k 0 := rfl
    rw [hpair2, hfget, hargs]
  have hps' : p < (pipeline vadd x_ y_ bs comm).sel_src.length := by
    rw [pipeline_sel_src, selSource_length, ← hnnz]
    exact hp
  have hpp' : p < (pipeline vadd x_ y_ bs comm).sel_pc.length := by
    rw [pipeline_sel_pc, selProbe, selProbeLoop_length, hmapfst, ← hnnz]
    exact hp
  refine ⟨?_, ?_, ?_, ?_, ?_⟩
  · rw [hss']
    exact hksrc
  · rw [hsp']
    exact hjlt
  · rw [hss', hsp']
    exact hjeq.symm
  · rw [hval]
    have hzl : p < (List.zipWith (fun a b => castTo (op a b) res.dtype)
        ((pipeline vadd x_ y_ bs comm).sel_src.map
          (fun k => (pipeline vadd x_ y_ bs comm).src.values.getD k vdflt))
        ((pipeline vadd x_ y_ bs comm).sel_pc.map
          (fun j => (pipeline vadd x_ y_ bs comm).pc.values.getD j vdflt))).length := by
      rw [List.length_zipWith, List.length_map, List.length_map]
      exact Nat.lt_min.mpr ⟨hps', hpp'⟩
    rw [List.getD_eq_getElem _ _ hzl, List.getElem_zipWith,
      List.getElem_map, List.getElem_map,
      List.getD_eq_getElem _ _ hps', List.getD_eq_getElem _ _ hpp']
  · rw [hind]
    rw [List.getD_eq_getElem _ _ (by rw [List.length_map]; exact hps'),
      List.getElem_map, List.getD_eq_getElem _ _ hps']

/-- Counterexample to C1 as stated: `[0]` appears 51 times in `x` and
once in `y`, yet the result holds a single row for it — the eager
coalesce inside the role selector collapses the duplicates, so the
`m × n` count against the raw inputs fails. -/
theorem claim_C1_counterexample :
    cexX.ValidB = true ∧ cexY.ValidB = true ∧
    exceptIsOk (_sparse_binary_op_intersection_kernel_impl
      (fun a b : Int => a * b) (fun v _ => v) (fun _ _ : Unit => ())
      (fun _ _ => true) (fun a b : Int => a + b) 0 cexRes cexX cexY [1]
      true) = true ∧
    (okOr (_sparse_binary_op_intersection_kernel_impl
      (fun a b : Int => a * b) (fun v _ => v) (fun _ _ : Unit => ())
      (fun _ _ => true) (fun a b : Int => a + b) 0 cexRes cexX cexY [1]
      true) cexRes).indices.count [0] = 1 ∧
    cexX.indices.count [0] * cexY.indices.count [0] = 51 := by
  decide

theorem claim_C1_witness :
    wT.indices.count [1] =
      (pipeline (fun a b : Int => a + b) wX wY [4] true).src.indices.count [1] *
        (pipeline (fun a b : Int => a + b) wX wY [4] true).pc.indices.count
          [1] :=
  (claim_C1 (fun a b : Int => a * b) (fun v _ => v) (fun _ _ : Unit => ())
    (fun _ _ => true) (fun a b : Int => a + b) 0 wRes wX wY [4] true 1
    (by decide) (by decide) wT rfl).2 [1]

theorem claim_C2_witness :
    (pipeline (fun a b : Int => a + b) wX wY [4] true).sel_src.getD 0 0 <
      (pipeline (fun a b : Int => a + b) wX wY [4] true).src.nnz :=
  ((claim_C2 (fun a b : Int => a * b) (fun v _ => v) (fun _ _ : Unit => ())
    (fun _ _ => true) (fun a b : Int => a + b) 0 wRes wX wY [4] true 1
    (by decide) (by decide) wT rfl) 0 (by decide)).1

theorem claim_C3_witness : wT.coalesced = (wX.coalesced && wY.coalesced) :=
  (claim_C3 (fun a b : Int => a * b) (fun v _ => v) (fun _ _ : Unit => ())
    (fun _ _ => true) (fun a b : Int => a + b) 0 wRes wX wY [4] 1
    (by decide) (by decide) wT rfl).1

theorem claim_C6_witness : wT.shape = [4] :=
  (claim_C6 (fun a b : Int => a * b) (fun v _ => v) (fun _ _ : Unit => ())
    (fun _ _ => true) (fun a b : Int => a + b) 0 wRes wX wY [4] true 1
    (by decide) (by decide) wT rfl).2.2.2.1

end SparseIntersection

